import Mathlib

/-!
Shallow embedding of the Windows plugin loader
(`src/plugin/plugin_windows.go`): the C `realpath` shim with its
Win32-error translation, and the Go `open`/`lookup` functions over the
process-wide plugin registry (`pluginsMu`, `plugins`).

The Go code is stateful and concurrent, so `open` is embedded as a
small-step machine: each thread runs `open` at a program counter whose
atomic steps mirror the source statements, global state holds the
registry map, the record heap, the mutex and an event log (native-load
invocations, initializer calls and symbol resolutions, each tagged with
whether the registry lock was held when it ran).  The OS/runtime
capabilities (`realpath`, `pluginOpen`/`LoadLibrary`, `lastmoduleinit`,
`pluginLookup`/`GetProcAddress`) are an explicit deterministic
environment, as the spec treats them: an injected capability interface.
-/

namespace PluginLoader

/-! ## Error taxonomy of the C `realpath` shim -/

/-- POSIX-style errno values the C `realpath` shim can set. -/
inductive Errno where
  | ENOENT | ENOTDIR | EACCES | Eio | ENAMETOOLONG | EINVAL
deriving DecidableEq, Repr

/-- Translation of Win32 `GetLastError` codes into errno values,
from the `switch` in the C `realpath` shim:
`ERROR_FILE_NOT_FOUND` (2) to `ENOENT`, `ERROR_PATH_NOT_FOUND` (3) and
`ERROR_INVALID_DRIVE` (15) to `ENOTDIR`, `ERROR_ACCESS_DENIED` (5) to
`EACCES`, anything else to `Eio` (for EIO). -/
def winErrToErrno (c : Nat) : Errno :=
  if c = 2 then .ENOENT
  else if c = 3 ∨ c = 15 then .ENOTDIR
  else if c = 5 then .EACCES
  else .Eio

/-- Outcome of the `GetFullPathNameA` call inside the C `realpath`
shim, as seen by the surrounding C code: success within the buffer,
a result too large for the fixed `PATH_MAX` buffer, or failure with a
`GetLastError` code. -/
inductive WinFullPath where
  | ok (full : String)
  | tooLong
  | osfail (code : Nat)

/-- The C `realpath` shim as called from Go (`resolved_path` non-null,
so the malloc-retry branch is dead): `GetFullPathNameA`, Win32-error
translation on failure, `ENAMETOOLONG` when the buffer is too small,
then a `stat` existence check whose errno is passed through. -/
def realpathModel (api : String → WinFullPath) (statErr : String → Option Errno)
    (path : String) : Except Errno String :=
  match api path with
  | .osfail c => .error (winErrToErrno c)
  | .tooLong => .error .ENAMETOOLONG
  | .ok full =>
    match statErr full with
    | some e => .error e
    | none => .ok full

/-! ## Data model -/

/-- A resolved symbol handle: the loader writes the resolved address
either wrapped (callable: `(*valp)[1] = unsafe.Pointer(&p)`) or
directly (data: `(*valp)[1] = p`). -/
inductive SymVal where
  | func (addr : Nat)
  | data (addr : Nat)
deriving DecidableEq, Repr

/-- The `Plugin` record: module identifier (`pluginpath`), cached error
string, whether the `loaded` channel was allocated (`make(chan struct)` --
only pending records get one), whether it was closed, and the symbol
directory (`syms`), `none` until assigned. -/
structure Plugin where
  pluginpath : String
  err : String
  hasLoaded : Bool
  loadedClosed : Bool
  syms : Option (List (String × SymVal))
deriving DecidableEq, Repr

def pluginDefault : Plugin :=
  { pluginpath := "", err := "", hasLoaded := false, loadedClosed := false, syms := none }

instance : Inhabited Plugin := ⟨pluginDefault⟩

/-- What `lastmoduleinit` (defined in the runtime) reports for the
most recently loaded image: the module identifier, the declared export
table (keys of the `syms` map; a leading dot marks a function symbol)
and an error string. -/
structure LastMod where
  pluginpath : String
  syms : List String
  errstr : String

/-- The deterministic OS/runtime environment: `realpath`, `pluginOpen`
(`LoadLibrary`; 0 means failure) with its formatted error message,
`lastmoduleinit` keyed by the canonical path of the image it describes,
and `pluginLookup` (`GetProcAddress`) with its error message. -/
structure Env where
  realpathFn : String → Except Errno String
  pluginOpenFn : String → Nat
  pluginOpenErr : String → String
  lastmod : String → LastMod
  resolve : String → String → Option Nat
  resolveErr : String → String → String

/-! ## String helpers from the source -/

/-- The `".so"` suffix as a character list. -/
def soSuffix : List Char := ['.', 's', 'o']

/-- `if len(name) > 3 && name[len(name)-3:] == ".so"` on the character
list of the name (the suffix is ASCII, so byte and character slicing
agree). -/
def stripSoL (l : List Char) : List Char :=
  if 3 < l.length ∧ l.drop (l.length - 3) = soSuffix then l.take (l.length - 3) else l

/-- The suffix-stripping at lines 235-237 of `open`:
`name = name[:len(name)-3]` when the name is longer than 3 bytes and
ends in `".so"`. -/
def stripSo (s : String) : String := String.mk (stripSoL s.data)

/-- `symName[0] == '.'`: a leading dot marks a function symbol. -/
def isFuncName (s : String) : Bool :=
  match s.data with
  | [] => false
  | c :: _ => c == '.'

/-- `symName = symName[1:]` applied when the leading dot is present. -/
def effName (s : String) : String :=
  if isFuncName s then String.mk s.data.tail else s

/-- The materialized handle for a declared export resolved at `addr`:
functions get a wrapped pointer, data symbols the address itself. -/
def symValOf (s : String) (addr : Nat) : SymVal :=
  if isFuncName s then .func addr else .data addr

/-! ## Association-list helpers (Go maps) -/

/-- Registry map lookup (`plugins[filepath]`). -/
def alookup : List (String × Nat) → String → Option Nat
  | [], _ => none
  | (k, v) :: rest, q => if q = k then some v else alookup rest q

/-- Symbol directory lookup (`p.syms[symName]`). -/
def mlookup : List (String × SymVal) → String → Option SymVal
  | [], _ => none
  | (k, v) :: rest, q => if q = k then some v else mlookup rest q

/-- Go map assignment `updatedSyms[symName] = sym`: the newest binding
shadows older ones. -/
def mapInsertS (l : List (String × SymVal)) (k : String) (v : SymVal) :
    List (String × SymVal) :=
  (k, v) :: l

/-- The symbol-materialization loop of `open` (lines 271-297) as a pure
function: walk the declared export table, resolve
`pluginpath + "." + effName` for each entry, fail on the first miss,
otherwise accumulate the typed handles. -/
def matList (env : Env) (fp pp : String) :
    List String → List (String × SymVal) → Option (List (String × SymVal))
  | [], acc => some acc
  | n :: rest, acc =>
    match env.resolve fp (pp ++ "." ++ effName n) with
    | none => none
    | some addr => matList env fp pp rest (mapInsertS acc (effName n) (symValOf n addr))

/-! ## Heap and thread-list helpers -/

/-- Read a record from the heap of allocated `Plugin` records. -/
def heapGet : List Plugin → Nat → Plugin
  | [], _ => pluginDefault
  | p :: _, 0 => p
  | _ :: rest, n + 1 => heapGet rest n

/-- Overwrite a record in the heap. -/
def heapSet : List Plugin → Nat → Plugin → List Plugin
  | [], _, _ => []
  | _ :: rest, 0, x => x :: rest
  | p :: rest, n + 1, x => p :: heapSet rest n x

/-! ## The machine -/

deriving instance DecidableEq for Except

/-- Program counters of `open`, one per atomic step of the source. -/
inductive PC where
  | start
  | lock
  | check
  | wait (id : Nat)
  | popen
  | strip
  | lastmod
  | insert
  | initlookup
  | initcall
  | symloop (rem : List String) (acc : List (String × SymVal))
  | setsyms (acc : List (String × SymVal))
  | closeld
  | done (res : Except String Nat)
deriving DecidableEq, Repr

/-- Per-thread state: program counter and the locals of `open`. -/
structure TState where
  pc : PC
  name : String
  filepath : String
  h : Nat
  pluginpath : String
  recId : Nat
deriving DecidableEq, Repr

def tGet : List TState → Nat → Option TState
  | [], _ => none
  | t :: _, 0 => some t
  | _ :: rest, n + 1 => tGet rest n

def tSet : List TState → Nat → TState → List TState
  | [], _, _ => []
  | _ :: rest, 0, x => x :: rest
  | t :: rest, n + 1, x => t :: tSet rest n x

/-- Logged events: native-load invocations, initializer calls and
symbol resolutions, each tagged with whether `pluginsMu` was held by
the emitting thread at that moment. -/
inductive Event where
  | popenEv (tid : Nat) (path : String) (lockHeld : Bool) (h : Nat)
  | initCallEv (tid : Nat) (lockHeld : Bool)
  | resolveEv (tid : Nat) (fullName : String) (lockHeld : Bool)
deriving DecidableEq, Repr

/-- Global state: the registry map (path to record id), the record
heap, the `pluginsMu` holder, the threads and the event log. -/
structure GState where
  registry : List (String × Nat)
  heap : List Plugin
  mutex : Option Nat
  threads : List TState
  events : List Event
deriving DecidableEq, Repr

/-- One atomic step of thread `tid`, following `open` line by line.
`none` means the thread is blocked (mutex taken, channel not closed)
or finished. -/
def step (env : Env) (g : GState) (tid : Nat) : Option GState :=
  match tGet g.threads tid with
  | none => none
  | some t =>
    match t.pc with
    | .start =>
      -- lines 206-215: cgo realpath; on failure open returns at once
      match env.realpathFn t.name with
      | .error _ =>
        let t' := { t with pc := .done (.error ("plugin.Open(\"" ++ t.name ++ "\"): realpath failed")) }
        some { g with threads := tSet g.threads tid t' }
      | .ok fp =>
        let t' := { t with pc := .lock, filepath := fp }
        some { g with threads := tSet g.threads tid t' }
    | .lock =>
      -- line 217: pluginsMu.Lock()
      match g.mutex with
      | some _ => none
      | none =>
        let t' := { t with pc := .check }
        some { g with mutex := some tid, threads := tSet g.threads tid t' }
    | .check =>
      -- lines 218-225: registry hit returns cached error or waits
      match alookup g.registry t.filepath with
      | some id =>
        let p := heapGet g.heap id
        if p.err ≠ "" then
          let t' := { t with pc := .done (.error ("plugin.Open(\"" ++ t.name ++ "\"): "
              ++ p.err ++ " (previous failure)")) }
          some { g with mutex := none, threads := tSet g.threads tid t' }
        else
          let t' := { t with pc := .wait id }
          some { g with mutex := none, threads := tSet g.threads tid t' }
      | none =>
        let t' := { t with pc := .popen }
        some { g with threads := tSet g.threads tid t' }
    | .wait id =>
      -- line 223: <-p.loaded
      if (heapGet g.heap id).loadedClosed then
        let t' := { t with pc := .done (.ok id) }
        some { g with threads := tSet g.threads tid t' }
      else none
    | .popen =>
      -- lines 226-232: C.pluginOpen, still under pluginsMu
      let hv := env.pluginOpenFn t.filepath
      let lk := decide (g.mutex = some tid)
      let ev := Event.popenEv tid t.filepath lk hv
      if hv = 0 then
        let t' := { t with pc := .done (.error ("plugin.Open(\"" ++ t.name ++ "\"): "
            ++ env.pluginOpenErr t.filepath ++ " error")) }
        let ts' := tSet g.threads tid t'
        some { g with mutex := none, events := g.events ++ [ev], threads := ts' }
      else
        let t' := { t with pc := .strip, h := hv }
        some { g with events := g.events ++ [ev], threads := tSet g.threads tid t' }
    | .strip =>
      -- lines 235-237: strip a trailing ".so" from the requested name
      let t' := { t with pc := .lastmod, name := stripSo t.name }
      some { g with threads := tSet g.threads tid t' }
    | .lastmod =>
      -- lines 241-250: lastmoduleinit; on error cache a Failed record
      let lm := env.lastmod t.filepath
      let failRec : Plugin := ⟨lm.pluginpath, lm.errstr, false, false, none⟩
      if lm.errstr ≠ "" then
        let t' := { t with pc := .done (.error ("plugin.Open(\"" ++ t.name ++ "\"): " ++ lm.errstr)) }
        let hp' := g.heap ++ [failRec]
        let reg' := g.registry ++ [(t.filepath, g.heap.length)]
        let ts' := tSet g.threads tid t'
        some { g with heap := hp', registry := reg', mutex := none, threads := ts' }
      else
        let t' := { t with pc := .insert, pluginpath := lm.pluginpath }
        some { g with threads := tSet g.threads tid t' }
    | .insert =>
      -- lines 253-258: drop the Pending placeholder, release pluginsMu
      let pendRec : Plugin := ⟨t.pluginpath, "", true, false, none⟩
      let t' := { t with pc := .initlookup, recId := g.heap.length }
      let hp' := g.heap ++ [pendRec]
      let reg' := g.registry ++ [(t.filepath, g.heap.length)]
      let ts' := tSet g.threads tid t'
      some { g with heap := hp', registry := reg', mutex := none, threads := ts' }
    | .initlookup =>
      -- lines 260-264: look up the optional <pluginpath>.init export
      let fullName := t.pluginpath ++ ".init"
      let lk := decide (g.mutex = some tid)
      match env.resolve t.filepath fullName with
      | some _ =>
        let t' := { t with pc := .initcall }
        let ts' := tSet g.threads tid t'
        some { g with events := g.events ++ [.resolveEv tid fullName lk], threads := ts' }
      | none =>
        let t' := { t with pc := .symloop (env.lastmod t.filepath).syms [] }
        let ts' := tSet g.threads tid t'
        some { g with events := g.events ++ [.resolveEv tid fullName lk], threads := ts' }
    | .initcall =>
      -- lines 265-269: invoke the initializer on the calling thread
      let lk := decide (g.mutex = some tid)
      let t' := { t with pc := .symloop (env.lastmod t.filepath).syms [] }
      let ts' := tSet g.threads tid t'
      some { g with events := g.events ++ [.initCallEv tid lk], threads := ts' }
    | .symloop rem acc =>
      -- lines 271-297: materialize each declared export
      match rem with
      | [] =>
        let t' := { t with pc := .setsyms acc }
        some { g with threads := tSet g.threads tid t' }
      | n :: rest =>
        let fullName := t.pluginpath ++ "." ++ effName n
        let lk := decide (g.mutex = some tid)
        match env.resolve t.filepath fullName with
        | none =>
          -- lines 285-287: fail the whole open; loaded is never closed
          let t' := { t with pc := .done (.error ("plugin.Open(\"" ++ t.name
              ++ "\"): could not find symbol " ++ effName n ++ ": "
              ++ env.resolveErr t.filepath fullName)) }
          let ts' := tSet g.threads tid t'
          some { g with events := g.events ++ [.resolveEv tid fullName lk], threads := ts' }
        | some addr =>
          let t' := { t with pc := .symloop rest (mapInsertS acc (effName n) (symValOf n addr)) }
          let ts' := tSet g.threads tid t'
          some { g with events := g.events ++ [.resolveEv tid fullName lk], threads := ts' }
    | .setsyms acc =>
      -- line 298: p.syms = updatedSyms
      let r := heapGet g.heap t.recId
      let t' := { t with pc := .closeld }
      let hp' := heapSet g.heap t.recId { r with syms := some acc }
      some { g with heap := hp', threads := tSet g.threads tid t' }
    | .closeld =>
      -- lines 300-301: close(p.loaded); return p, nil
      let r := heapGet g.heap t.recId
      let t' := { t with pc := .done (.ok t.recId) }
      let hp' := heapSet g.heap t.recId { r with loadedClosed := true }
      some { g with heap := hp', threads := tSet g.threads tid t' }
    | .done _ => none

/-- Run a schedule: at each tick the named thread takes its step if it
can, otherwise the state is unchanged. -/
def run (env : Env) (g : GState) : List Nat → GState
  | [] => g
  | tid :: rest =>
    match step env g tid with
    | some g' => run env g' rest
    | none => run env g rest

/-- A fresh thread entering `open name`. -/
def initThread (name : String) : TState :=
  { pc := .start, name := name, filepath := "", h := 0, pluginpath := "", recId := 0 }

/-- Initial global state: empty registry and heap, mutex free, one
thread per requested name. -/
def initState (names : List String) : GState :=
  { registry := [], heap := [], mutex := none, threads := names.map initThread, events := [] }

/-- `lookup` (lines 304-309): read the symbol directory; a nil map
yields the not-found error. -/
def lookupP (r : Plugin) (symName : String) : Except String SymVal :=
  match r.syms with
  | some s =>
    match mlookup s symName with
    | some v => .ok v
    | none => .error ("plugin: symbol " ++ symName ++ " not found in plugin " ++ r.pluginpath)
  | none => .error ("plugin: symbol " ++ symName ++ " not found in plugin " ++ r.pluginpath)

/-- Count logged `pluginOpen` invocations for a given canonical path. -/
def isPopenFor (p : String) : Event → Bool
  | .popenEv _ q _ _ => q == p
  | _ => false

def countPopen (evs : List Event) (p : String) : Nat :=
  (evs.filter (isPopenFor p)).length

/-! ## Basic lemmas about the helpers -/

theorem alookup_append_some {l l2 : List (String × Nat)} {q : String} {v : Nat}
    (h : alookup l q = some v) : alookup (l ++ l2) q = some v := by
  induction l with
  | nil => simp [alookup] at h
  | cons kv rest ih =>
    obtain ⟨k, w⟩ := kv
    simp only [alookup, List.cons_append] at h ⊢
    split at h
    · simp [*]
    · simp only [*, if_neg]
      exact ih h

theorem alookup_append_none {l l2 : List (String × Nat)} {q : String}
    (h : alookup l q = none) : alookup (l ++ l2) q = alookup l2 q := by
  induction l with
  | nil => simp [alookup]
  | cons kv rest ih =>
    obtain ⟨k, w⟩ := kv
    simp only [alookup, List.cons_append] at h ⊢
    split at h
    · exact absurd h (by simp)
    · simp only [*, if_neg]
      exact ih h

theorem alookup_append_cases {l : List (String × Nat)} {k : String} {i : Nat}
    {q : String} {v : Nat} (h : alookup (l ++ [(k, i)]) q = some v) :
    alookup l q = some v ∨ (alookup l q = none ∧ q = k ∧ v = i) := by
  cases hl : alookup l q with
  | some w =>
    left
    rw [alookup_append_some hl] at h
    exact h
  | none =>
    right
    rw [alookup_append_none hl] at h
    simp only [alookup] at h
    split at h
    · exact ⟨rfl, by assumption, by injection h with h; exact h.symm⟩
    · simp [alookup] at h

theorem heapGet_append_lt {hp : List Plugin} {l2 : List Plugin} {i : Nat}
    (h : i < hp.length) : heapGet (hp ++ l2) i = heapGet hp i := by
  induction hp generalizing i with
  | nil => simp at h
  | cons p rest ih =>
    cases i with
    | zero => simp [heapGet]
    | succ n =>
      simp only [heapGet, List.cons_append]
      exact ih (by simpa using h)

theorem heapGet_append_len {hp : List Plugin} {x : Plugin} :
    heapGet (hp ++ [x]) hp.length = x := by
  induction hp with
  | nil => simp [heapGet]
  | cons p rest ih =>
    simp only [List.cons_append, List.length_cons, heapGet]
    exact ih

theorem heapSet_length {hp : List Plugin} {i : Nat} {x : Plugin} :
    (heapSet hp i x).length = hp.length := by
  induction hp generalizing i with
  | nil => simp [heapSet]
  | cons p rest ih =>
    cases i with
    | zero => simp [heapSet]
    | succ n => simpa [heapSet] using ih

theorem heapGet_set_self {hp : List Plugin} {i : Nat} {x : Plugin}
    (h : i < hp.length) : heapGet (heapSet hp i x) i = x := by
  induction hp generalizing i with
  | nil => simp at h
  | cons p rest ih =>
    cases i with
    | zero => simp [heapSet, heapGet]
    | succ n =>
      simp only [heapSet, heapGet]
      exact ih (by simpa using h)

theorem heapGet_set_ne {hp : List Plugin} {i j : Nat} {x : Plugin}
    (h : i ≠ j) : heapGet (heapSet hp i x) j = heapGet hp j := by
  induction hp generalizing i j with
  | nil => simp [heapSet]
  | cons p rest ih =>
    cases i with
    | zero =>
      cases j with
      | zero => exact absurd rfl h
      | succ m => simp [heapSet, heapGet]
    | succ n =>
      cases j with
      | zero => simp [heapSet, heapGet]
      | succ m =>
        simp only [heapSet, heapGet]
        exact ih (by omega)

theorem heapSet_oob {hp : List Plugin} {i : Nat} {x : Plugin}
    (h : ¬ i < hp.length) : heapSet hp i x = hp := by
  induction hp generalizing i with
  | nil => simp [heapSet]
  | cons p rest ih =>
    cases i with
    | zero => simp at h
    | succ n =>
      simp only [heapSet, List.cons.injEq, true_and]
      exact ih (by simp at h; omega)

theorem tGet_set_self {ts : List TState} {i : Nat} {t x : TState}
    (h : tGet ts i = some t) : tGet (tSet ts i x) i = some x := by
  induction ts generalizing i with
  | nil => simp [tGet] at h
  | cons u rest ih =>
    cases i with
    | zero => simp [tSet, tGet]
    | succ n =>
      simp only [tSet, tGet]
      exact ih (by simpa [tGet] using h)

theorem tGet_set_ne {ts : List TState} {i j : Nat} {x : TState}
    (h : i ≠ j) : tGet (tSet ts i x) j = tGet ts j := by
  induction ts generalizing i j with
  | nil => simp [tSet]
  | cons u rest ih =>
    cases i with
    | zero =>
      cases j with
      | zero => exact absurd rfl h
      | succ m => simp [tSet, tGet]
    | succ n =>
      cases j with
      | zero => simp [tSet, tGet]
      | succ m =>
        simp only [tSet, tGet]
        exact ih (by omega)

theorem countPopen_append {evs : List Event} {e : Event} {p : String} :
    countPopen (evs ++ [e]) p
      = countPopen evs p + (if isPopenFor p e then 1 else 0) := by
  simp only [countPopen, List.filter_append, List.length_append]
  split <;> simp [List.filter, *]

theorem countPopen_append_other {evs : List Event} {e : Event} {p : String}
    (h : isPopenFor p e = false) : countPopen (evs ++ [e]) p = countPopen evs p := by
  rw [countPopen_append, h]
  simp

/-! ## Lemmas about symbol materialization -/

theorem matList_cons {env : Env} {fp pp : String} {n : String} {rest : List String}
    {acc : List (String × SymVal)} :
    matList env fp pp (n :: rest) acc
      = match env.resolve fp (pp ++ "." ++ effName n) with
        | none => none
        | some addr => matList env fp pp rest (mapInsertS acc (effName n) (symValOf n addr)) := rfl

theorem matList_append {env : Env} {fp pp : String} {l1 l2 : List String}
    {acc : List (String × SymVal)} :
    matList env fp pp (l1 ++ l2) acc
      = (matList env fp pp l1 acc).bind (fun a => matList env fp pp l2 a) := by
  induction l1 generalizing acc with
  | nil => simp [matList]
  | cons n rest ih =>
    simp only [List.cons_append, matList]
    cases env.resolve fp (pp ++ "." ++ effName n) with
    | none => simp
    | some addr => simpa using ih

theorem mlookup_insert_self {acc : List (String × SymVal)} {k : String} {v : SymVal} :
    mlookup (mapInsertS acc k v) k = some v := by
  simp [mapInsertS, mlookup]

theorem mlookup_insert_isSome {acc : List (String × SymVal)} {k q : String} {v : SymVal}
    (h : (mlookup acc q).isSome = true) :
    (mlookup (mapInsertS acc k v) q).isSome = true := by
  simp only [mapInsertS, mlookup]
  split
  · simp
  · exact h

theorem matList_lookup_mono {env : Env} {fp pp : String} {l : List String}
    {acc s : List (String × SymVal)} {q : String}
    (hm : matList env fp pp l acc = some s)
    (h : (mlookup acc q).isSome = true) : (mlookup s q).isSome = true := by
  induction l generalizing acc with
  | nil =>
    simp only [matList] at hm
    injection hm with hm
    rw [← hm]; exact h
  | cons n rest ih =>
    simp only [matList] at hm
    cases hr : env.resolve fp (pp ++ "." ++ effName n) with
    | none => rw [hr] at hm; exact absurd hm (by simp)
    | some addr =>
      rw [hr] at hm
      exact ih hm (mlookup_insert_isSome h)

/-- Every declared export ends up with an entry in a successfully
materialized symbol directory. -/
theorem matList_mem_isSome {env : Env} {fp pp : String} {l : List String}
    {acc s : List (String × SymVal)} {n : String}
    (hm : matList env fp pp l acc = some s) (hn : n ∈ l) :
    (mlookup s (effName n)).isSome = true := by
  induction l generalizing acc with
  | nil => simp at hn
  | cons m rest ih =>
    simp only [matList] at hm
    cases hr : env.resolve fp (pp ++ "." ++ effName m) with
    | none => rw [hr] at hm; exact absurd hm (by simp)
    | some addr =>
      rw [hr] at hm
      rcases List.mem_cons.mp hn with h | h
      · subst h
        exact matList_lookup_mono hm (by simp [mlookup_insert_self])
      · exact ih hm h

/-! ## The global invariant

The properties below hold in every reachable state, for every
interleaving of any number of threads: they are what the claims about
concurrency and ordering reduce to. -/

/-- Program counters at which the thread holds `pluginsMu`. -/
def critPC : PC → Bool
  | .check | .popen | .strip | .lastmod | .insert => true
  | _ => false

/-- Program counters at which the thread owns a pending record it will
publish (between the registry insert and the return). -/
def ownerPC : PC → Bool
  | .initlookup | .initcall | .symloop _ _ | .setsyms _ | .closeld => true
  | _ => false

/-- Program counters between a successful `pluginOpen` and the registry
insert for that path. -/
def loaderPC : PC → Bool
  | .strip | .lastmod | .insert => true
  | _ => false

/-- Some thread is between a successful `pluginOpen` for path `p` and
the registry insert for `p`. -/
def loaderFor (ts : List TState) (p : String) : Prop :=
  ∃ i t, tGet ts i = some t ∧ loaderPC t.pc = true ∧ t.filepath = p

/-- The pending record owned by a thread past the insert step:
registered under its path, in bounds, with matching module identifier
and a blank error. -/
def recPendingOK (env : Env) (reg : List (String × Nat)) (hp : List Plugin)
    (t : TState) : Prop :=
  alookup reg t.filepath = some t.recId ∧ t.recId < hp.length ∧
  t.pluginpath = (env.lastmod t.filepath).pluginpath ∧
  (env.lastmod t.filepath).errstr = "" ∧
  env.pluginOpenFn t.filepath ≠ 0 ∧
  (heapGet hp t.recId).err = "" ∧
  (heapGet hp t.recId).pluginpath = t.pluginpath

/-- The owned record has no symbol directory yet and its completion
channel is still open. -/
def unpublished (hp : List Plugin) (t : TState) : Prop :=
  (heapGet hp t.recId).syms = none ∧ (heapGet hp t.recId).loadedClosed = false

/-- Per-thread invariant, by program counter. -/
def threadOK (env : Env) (mu : Option Nat) (reg : List (String × Nat))
    (hp : List Plugin) (i : Nat) (t : TState) : Prop :=
  match t.pc with
  | .start => True
  | .lock => True
  | .check => mu = some i
  | .popen => mu = some i ∧ alookup reg t.filepath = none
  | .strip => mu = some i ∧ alookup reg t.filepath = none ∧ env.pluginOpenFn t.filepath ≠ 0
  | .lastmod => mu = some i ∧ alookup reg t.filepath = none ∧ env.pluginOpenFn t.filepath ≠ 0
  | .insert => mu = some i ∧ alookup reg t.filepath = none ∧ env.pluginOpenFn t.filepath ≠ 0 ∧
      (env.lastmod t.filepath).errstr = "" ∧ t.pluginpath = (env.lastmod t.filepath).pluginpath
  | .initlookup => recPendingOK env reg hp t ∧ unpublished hp t
  | .initcall => recPendingOK env reg hp t ∧ unpublished hp t ∧
      (env.resolve t.filepath (t.pluginpath ++ ".init")).isSome = true
  | .symloop rem acc => recPendingOK env reg hp t ∧ unpublished hp t ∧
      ∃ pre, (env.lastmod t.filepath).syms = pre ++ rem ∧
        matList env t.filepath t.pluginpath pre [] = some acc
  | .setsyms acc => recPendingOK env reg hp t ∧ unpublished hp t ∧
      matList env t.filepath t.pluginpath (env.lastmod t.filepath).syms [] = some acc
  | .closeld => recPendingOK env reg hp t ∧ (heapGet hp t.recId).syms.isSome = true
  | .wait id => alookup reg t.filepath = some id
  | .done r =>
    match r with
    | .ok id => alookup reg t.filepath = some id ∧ (heapGet hp id).loadedClosed = true
    | .error _ => True

/-- Per-record invariant: a registered record carries its path's module
identifier, a Failed record is inert, a pending/loaded record only ever
publishes the full materialization of the declared export table, and
the completion channel closes only after the directory is published. -/
def recordOK (env : Env) (p : String) (r : Plugin) : Prop :=
  r.pluginpath = (env.lastmod p).pluginpath ∧
  env.pluginOpenFn p ≠ 0 ∧
  (r.err ≠ "" → r.err = (env.lastmod p).errstr ∧ r.hasLoaded = false ∧
    r.loadedClosed = false ∧ r.syms = none) ∧
  (r.err = "" → r.hasLoaded = true ∧ (env.lastmod p).errstr = "" ∧
    (∀ s, r.syms = some s →
      matList env p r.pluginpath (env.lastmod p).syms [] = some s) ∧
    (r.loadedClosed = true → r.syms.isSome = true))

/-- Lock discipline of the logged events: the native load always runs
with `pluginsMu` held; initializer calls and symbol resolutions never
do. -/
def eventOK : Event → Prop
  | .popenEv _ _ lk _ => lk = true
  | .initCallEv _ lk => lk = false
  | .resolveEv _ _ lk => lk = false

/-- The global invariant. -/
structure Inv (env : Env) (g : GState) : Prop where
  mutexCrit : ∀ i, g.mutex = some i → ∃ t, tGet g.threads i = some t ∧ critPC t.pc = true
  tok : ∀ i t, tGet g.threads i = some t → threadOK env g.mutex g.registry g.heap i t
  rok : ∀ p id, alookup g.registry p = some id →
      id < g.heap.length ∧ recordOK env p (heapGet g.heap id)
  rinj : ∀ p q id, alookup g.registry p = some id → alookup g.registry q = some id → p = q
  evok : ∀ e, e ∈ g.events → eventOK e
  cnt : ∀ p, env.pluginOpenFn p ≠ 0 → countPopen g.events p ≤ 1 ∧
      (countPopen g.events p = 1 →
        (alookup g.registry p).isSome = true ∨ loaderFor g.threads p)
  own : ∀ i j ti tj, tGet g.threads i = some ti → tGet g.threads j = some tj →
      ownerPC ti.pc = true → ownerPC tj.pc = true → ti.recId = tj.recId → i = j

theorem tGet_map_initThread {names : List String} {i : Nat} {t : TState}
    (h : tGet (names.map initThread) i = some t) : t.pc = .start := by
  induction names generalizing i with
  | nil => simp [tGet] at h
  | cons n rest ih =>
    cases i with
    | zero =>
      simp only [List.map, tGet] at h
      injection h with h
      rw [← h]
      rfl
    | succ m =>
      simp only [List.map, tGet] at h
      exact ih h

theorem inv_init (env : Env) (names : List String) : Inv env (initState names) := by
  constructor
  · intro i h
    simp [initState] at h
  · intro i t ht
    have hpc : t.pc = .start := tGet_map_initThread ht
    simp [threadOK, hpc]
  · intro p id h
    simp [initState, alookup] at h
  · intro p q id h
    simp [initState, alookup] at h
  · intro e h
    simp [initState] at h
  · intro p _
    simp [initState, countPopen, List.filter]
  · intro i j ti tj hi hj hoi hoj _
    exfalso
    have hpc : ti.pc = .start := tGet_map_initThread hi
    rw [hpc] at hoi
    simp [ownerPC] at hoi

/-! ### Stability helpers -/

theorem threadOK_crit_mutex {env : Env} {mu : Option Nat} {reg : List (String × Nat)}
    {hp : List Plugin} {i : Nat} {t : TState} (h : threadOK env mu reg hp i t)
    (hc : critPC t.pc = true) : mu = some i := by
  cases hpc : t.pc <;> rw [hpc] at hc <;> simp [critPC] at hc <;>
    simp only [threadOK, hpc] at h
  · exact h
  · exact h.1
  · exact h.1
  · exact h.1
  · exact h.1

theorem threadOK_owner_rec {env : Env} {mu : Option Nat} {reg : List (String × Nat)}
    {hp : List Plugin} {i : Nat} {t : TState} (h : threadOK env mu reg hp i t)
    (ho : ownerPC t.pc = true) : recPendingOK env reg hp t := by
  cases hpc : t.pc <;> rw [hpc] at ho <;> simp [ownerPC] at ho <;>
    simp only [threadOK, hpc] at h
  · exact h.1
  · exact h.1
  · exact h.1
  · exact h.1
  · exact h.1

/-- A thread that does not hold the mutex keeps its invariant when the
mutex holder changes. -/
theorem threadOK_mu {env : Env} {mu mu' : Option Nat} {reg : List (String × Nat)}
    {hp : List Plugin} {i : Nat} {t : TState} (h : threadOK env mu reg hp i t)
    (hne : mu ≠ some i) : threadOK env mu' reg hp i t := by
  cases hpc : t.pc <;> simp only [threadOK, hpc] at h ⊢ <;>
    first
      | trivial
      | exact h
      | exact absurd h hne
      | exact absurd h.1 hne

/-- A non-critical thread keeps its invariant when a fresh record is
registered and the mutex is released. -/
theorem threadOK_extend {env : Env} {mu : Option Nat} {mu' : Option Nat}
    {reg : List (String × Nat)} {hp : List Plugin} {i : Nat} {t : TState}
    {fp : String} {x : Plugin}
    (h : threadOK env mu reg hp i t) (hnc : critPC t.pc = false)
    (hid : ∀ q id, alookup reg q = some id → id < hp.length) :
    threadOK env mu' (reg ++ [(fp, hp.length)]) (hp ++ [x]) i t := by
  cases hpc : t.pc <;> simp only [threadOK, hpc] at h ⊢ <;>
    rw [hpc] at hnc <;> simp [critPC] at hnc
  case wait id => exact alookup_append_some h
  case initlookup =>
    obtain ⟨⟨h1, h2, h3, h4, h5, h6, h7⟩, hu1, hu2⟩ := h
    exact ⟨⟨alookup_append_some h1, by simp; omega,
      h3, h4, h5, by rwa [heapGet_append_lt h2], by rwa [heapGet_append_lt h2]⟩,
      by rwa [heapGet_append_lt h2], by rwa [heapGet_append_lt h2]⟩
  case initcall =>
    obtain ⟨⟨h1, h2, h3, h4, h5, h6, h7⟩, ⟨hu1, hu2⟩, hr⟩ := h
    exact ⟨⟨alookup_append_some h1, by simp; omega,
      h3, h4, h5, by rwa [heapGet_append_lt h2], by rwa [heapGet_append_lt h2]⟩,
      ⟨by rwa [heapGet_append_lt h2], by rwa [heapGet_append_lt h2]⟩, hr⟩
  case symloop rem acc =>
    obtain ⟨⟨h1, h2, h3, h4, h5, h6, h7⟩, ⟨hu1, hu2⟩, hm⟩ := h
    exact ⟨⟨alookup_append_some h1, by simp; omega,
      h3, h4, h5, by rwa [heapGet_append_lt h2], by rwa [heapGet_append_lt h2]⟩,
      ⟨by rwa [heapGet_append_lt h2], by rwa [heapGet_append_lt h2]⟩, hm⟩
  case setsyms acc =>
    obtain ⟨⟨h1, h2, h3, h4, h5, h6, h7⟩, ⟨hu1, hu2⟩, hm⟩ := h
    exact ⟨⟨alookup_append_some h1, by simp; omega,
      h3, h4, h5, by rwa [heapGet_append_lt h2], by rwa [heapGet_append_lt h2]⟩,
      ⟨by rwa [heapGet_append_lt h2], by rwa [heapGet_append_lt h2]⟩, hm⟩
  case closeld =>
    obtain ⟨⟨h1, h2, h3, h4, h5, h6, h7⟩, hs⟩ := h
    exact ⟨⟨alookup_append_some h1, by simp; omega,
      h3, h4, h5, by rwa [heapGet_append_lt h2], by rwa [heapGet_append_lt h2]⟩,
      by rwa [heapGet_append_lt h2]⟩
  case done r =>
    cases r with
    | ok id =>
      obtain ⟨h1, h2⟩ := h
      have hlt := hid _ _ h1
      exact ⟨alookup_append_some h1, by rwa [heapGet_append_lt hlt]⟩
    | error m => trivial

/-- A thread keeps its invariant when a record it does not own is
updated in place, provided the update preserves the error text and
module identifier and never reopens a closed channel. -/
theorem threadOK_heapSet {env : Env} {mu : Option Nat} {reg : List (String × Nat)}
    {hp : List Plugin} {i : Nat} {t : TState} {rid : Nat} {x : Plugin}
    (h : threadOK env mu reg hp i t)
    (hlc : (heapGet hp rid).loadedClosed = true → x.loadedClosed = true)
    (hown : ownerPC t.pc = true → t.recId ≠ rid) :
    threadOK env mu reg (heapSet hp rid x) i t := by
  have hlen : (heapSet hp rid x).length = hp.length := heapSet_length
  cases hpc : t.pc <;> simp only [threadOK, hpc] at h ⊢
  case check => exact h
  case popen => exact h
  case strip => exact h
  case lastmod => exact h
  case insert => exact h
  case wait id => exact h
  case initlookup =>
    have hne : t.recId ≠ rid := hown (by rw [hpc]; rfl)
    obtain ⟨⟨h1, h2, h3, h4, h5, h6, h7⟩, hu1, hu2⟩ := h
    rw [← heapGet_set_ne (Ne.symm hne) (x := x)] at h6 h7 hu1 hu2
    exact ⟨⟨h1, by omega, h3, h4, h5, h6, h7⟩, hu1, hu2⟩
  case initcall =>
    have hne : t.recId ≠ rid := hown (by rw [hpc]; rfl)
    obtain ⟨⟨h1, h2, h3, h4, h5, h6, h7⟩, ⟨hu1, hu2⟩, hr⟩ := h
    rw [← heapGet_set_ne (Ne.symm hne) (x := x)] at h6 h7 hu1 hu2
    exact ⟨⟨h1, by omega, h3, h4, h5, h6, h7⟩, ⟨hu1, hu2⟩, hr⟩
  case symloop rem acc =>
    have hne : t.recId ≠ rid := hown (by rw [hpc]; rfl)
    obtain ⟨⟨h1, h2, h3, h4, h5, h6, h7⟩, ⟨hu1, hu2⟩, hm⟩ := h
    rw [← heapGet_set_ne (Ne.symm hne) (x := x)] at h6 h7 hu1 hu2
    exact ⟨⟨h1, by omega, h3, h4, h5, h6, h7⟩, ⟨hu1, hu2⟩, hm⟩
  case setsyms acc =>
    have hne : t.recId ≠ rid := hown (by rw [hpc]; rfl)
    obtain ⟨⟨h1, h2, h3, h4, h5, h6, h7⟩, ⟨hu1, hu2⟩, hm⟩ := h
    rw [← heapGet_set_ne (Ne.symm hne) (x := x)] at h6 h7 hu1 hu2
    exact ⟨⟨h1, by omega, h3, h4, h5, h6, h7⟩, ⟨hu1, hu2⟩, hm⟩
  case closeld =>
    have hne : t.recId ≠ rid := hown (by rw [hpc]; rfl)
    obtain ⟨⟨h1, h2, h3, h4, h5, h6, h7⟩, hs⟩ := h
    rw [← heapGet_set_ne (Ne.symm hne) (x := x)] at h6 h7 hs
    exact ⟨⟨h1, by omega, h3, h4, h5, h6, h7⟩, hs⟩
  case done r =>
    cases r with
    | ok id =>
      obtain ⟨h1, h2⟩ := h
      refine ⟨h1, ?_⟩
      by_cases hir : rid = id
      · subst hir
        by_cases hb : rid < hp.length
        · rw [heapGet_set_self hb]
          exact hlc h2
        · rw [heapSet_oob hb]
          exact h2
      · rwa [heapGet_set_ne hir]
    | error m => trivial

theorem own_set {ts : List TState} {tid : Nat} {t t' : TState}
    (own : ∀ i j ti tj, tGet ts i = some ti → tGet ts j = some tj →
      ownerPC ti.pc = true → ownerPC tj.pc = true → ti.recId = tj.recId → i = j)
    (ht : tGet ts tid = some t)
    (hc : ownerPC t'.pc = true → ownerPC t.pc = true ∧ t'.recId = t.recId) :
    ∀ i j ti tj, tGet (tSet ts tid t') i = some ti → tGet (tSet ts tid t') j = some tj →
      ownerPC ti.pc = true → ownerPC tj.pc = true → ti.recId = tj.recId → i = j := by
  intro i j ti tj hi hj hoi hoj hrr
  by_cases hit : i = tid
  · by_cases hjt : j = tid
    · rw [hit, hjt]
    · rw [hit, tGet_set_self ht] at hi
      injection hi with hi
      rw [tGet_set_ne (fun he => hjt he.symm)] at hj
      have hoi' : ownerPC t'.pc = true := by rw [hi]; exact hoi
      obtain ⟨ho, hr⟩ := hc hoi'
      rw [hit]
      exact own tid j t tj ht hj ho hoj (by rw [← hr, hi]; exact hrr)
  · rw [tGet_set_ne (fun he => hit he.symm)] at hi
    by_cases hjt : j = tid
    · rw [hjt, tGet_set_self ht] at hj
      injection hj with hj
      have hoj' : ownerPC t'.pc = true := by rw [hj]; exact hoj
      obtain ⟨ho, hr⟩ := hc hoj'
      rw [hjt]
      exact own i tid ti t hi ht hoi ho (by rw [← hr, hj]; exact hrr)
    · rw [tGet_set_ne (fun he => hjt he.symm)] at hj
      exact own i j ti tj hi hj hoi hoj hrr

theorem loaderFor_set {ts : List TState} {tid : Nat} {t t' : TState} {p : String}
    (ht : tGet ts tid = some t)
    (hd : loaderPC t.pc = true → loaderPC t'.pc = true ∧ t'.filepath = t.filepath)
    (h : loaderFor ts p) : loaderFor (tSet ts tid t') p := by
  obtain ⟨j, u, hu, hl, hf⟩ := h
  by_cases hjt : j = tid
  · rw [hjt, ht] at hu
    injection hu with hu
    obtain ⟨hl', hf'⟩ := hd (by rw [hu]; exact hl)
    exact ⟨tid, t', tGet_set_self ht, hl', by rw [hf', hu]; exact hf⟩
  · exact ⟨j, u, by rwa [tGet_set_ne (fun he => hjt he.symm)], hl, hf⟩

/-- Frame lemma: a step that only rewrites the stepping thread (no
change to the registry, heap, mutex or event log) preserves the
invariant. -/
theorem mkInv_threadOnly {env : Env} {g : GState} {tid : Nat} {t t' : TState}
    (hinv : Inv env g) (ht : tGet g.threads tid = some t)
    (ha : threadOK env g.mutex g.registry g.heap tid t')
    (hb : critPC t.pc = true → critPC t'.pc = true)
    (hc : ownerPC t'.pc = true → ownerPC t.pc = true ∧ t'.recId = t.recId)
    (hd : loaderPC t.pc = true → loaderPC t'.pc = true ∧ t'.filepath = t.filepath) :
    Inv env { g with threads := tSet g.threads tid t' } := by
  obtain ⟨mc, tok, rok, rinj, evok, cnt, own⟩ := hinv
  refine ⟨?_, ?_, rok, rinj, evok, ?_, own_set own ht hc⟩
  · intro i hmu
    obtain ⟨u, hu, hcu⟩ := mc i hmu
    by_cases hit : i = tid
    · refine ⟨t', by rw [hit]; exact tGet_set_self ht, ?_⟩
      apply hb
      rw [hit, ht] at hu
      injection hu with hu
      rw [hu]
      exact hcu
    · exact ⟨u, by rwa [tGet_set_ne (fun he => hit he.symm)], hcu⟩
  · intro i u hu
    by_cases hit : i = tid
    · rw [hit, tGet_set_self ht] at hu
      injection hu with hu
      rw [← hu, hit]
      exact ha
    · rw [tGet_set_ne (fun he => hit he.symm)] at hu
      exact tok i u hu
  · intro p hp
    obtain ⟨h1, h2⟩ := cnt p hp
    refine ⟨h1, fun hcp => ?_⟩
    rcases h2 hcp with hreg | hld
    · exact Or.inl hreg
    · exact Or.inr (loaderFor_set ht hd hld)

/-- Frame lemma: as `mkInv_threadOnly`, but the step also logs one
event that is not a native-load invocation. -/
theorem mkInv_threadEvents {env : Env} {g : GState} {tid : Nat} {t t' : TState}
    {e : Event} (hinv : Inv env g) (ht : tGet g.threads tid = some t)
    (ha : threadOK env g.mutex g.registry g.heap tid t')
    (hb : critPC t.pc = true → critPC t'.pc = true)
    (hc : ownerPC t'.pc = true → ownerPC t.pc = true ∧ t'.recId = t.recId)
    (hd : loaderPC t.pc = true → loaderPC t'.pc = true ∧ t'.filepath = t.filepath)
    (he : eventOK e) (hne : ∀ p, isPopenFor p e = false) :
    Inv env { g with events := g.events ++ [e], threads := tSet g.threads tid t' } := by
  obtain ⟨mc, tok, rok, rinj, evok, cnt, own⟩ := hinv
  refine ⟨?_, ?_, rok, rinj, ?_, ?_, own_set own ht hc⟩
  · intro i hmu
    obtain ⟨u, hu, hcu⟩ := mc i hmu
    by_cases hit : i = tid
    · refine ⟨t', by rw [hit]; exact tGet_set_self ht, ?_⟩
      apply hb
      rw [hit, ht] at hu
      injection hu with hu
      rw [hu]
      exact hcu
    · exact ⟨u, by rwa [tGet_set_ne (fun he2 => hit he2.symm)], hcu⟩
  · intro i u hu
    by_cases hit : i = tid
    · rw [hit, tGet_set_self ht] at hu
      injection hu with hu
      rw [← hu, hit]
      exact ha
    · rw [tGet_set_ne (fun he2 => hit he2.symm)] at hu
      exact tok i u hu
  · intro e2 he2
    rcases List.mem_append.mp he2 with hin | hin
    · exact evok e2 hin
    · rw [List.mem_singleton.mp hin]
      exact he
  · intro p hp
    rw [countPopen_append_other (hne p)]
    obtain ⟨h1, h2⟩ := cnt p hp
    refine ⟨h1, fun hcp => ?_⟩
    rcases h2 hcp with hreg | hld
    · exact Or.inl hreg
    · exact Or.inr (loaderFor_set ht hd hld)

theorem loader_crit {pc : PC} (h : loaderPC pc = true) : critPC pc = true := by
  cases pc <;> simp [loaderPC, critPC] at h ⊢

/-- While a thread holds the mutex at a non-loader counter, no thread
is between `pluginOpen` and the registry insert. -/
theorem loaderFor_elim {env : Env} {g : GState}
    (tok : ∀ i u, tGet g.threads i = some u → threadOK env g.mutex g.registry g.heap i u)
    {tid : Nat} {t : TState} (ht : tGet g.threads tid = some t)
    (hmu : g.mutex = some tid) (hnl : loaderPC t.pc = false) {p : String}
    (h : loaderFor g.threads p) : False := by
  obtain ⟨j, u, hu, hl, hf⟩ := h
  have hcm := threadOK_crit_mutex (tok j u hu) (loader_crit hl)
  rw [hmu] at hcm
  injection hcm with hcm
  rw [← hcm] at hu
  rw [ht] at hu
  injection hu with hu
  rw [← hu] at hl
  rw [hl] at hnl
  exact absurd hnl (by simp)

/-- With the mutex free, no thread is between `pluginOpen` and the
registry insert. -/
theorem loaderFor_elim_none {env : Env} {g : GState}
    (tok : ∀ i u, tGet g.threads i = some u → threadOK env g.mutex g.registry g.heap i u)
    (hmu : g.mutex = none) {p : String}
    (h : loaderFor g.threads p) : False := by
  obtain ⟨j, u, hu, hl, _⟩ := h
  have hcm := threadOK_crit_mutex (tok j u hu) (loader_crit hl)
  rw [hmu] at hcm
  exact Option.noConfusion hcm

set_option maxHeartbeats 1000000 in
theorem inv_step {env : Env} {g g' : GState} {tid : Nat}
    (hinv : Inv env g) (hs : step env g tid = some g') : Inv env g' := by
  unfold step at hs
  cases ht : tGet g.threads tid with
  | none =>
    rw [ht] at hs
    exact absurd hs (by simp)
  | some t =>
    simp only [ht] at hs
    have htok := hinv.tok tid t ht
    cases hpc : t.pc with
    | start =>
      simp only [hpc] at hs
      cases hr : env.realpathFn t.name with
      | error e =>
        simp only [hr] at hs
        injection hs with hs
        subst hs
        refine mkInv_threadOnly hinv ht ?_ ?_ ?_ ?_
        · simp [threadOK]
        · intro hcr; rw [hpc] at hcr; simp [critPC] at hcr
        · intro ho; simp [ownerPC] at ho
        · intro hl; rw [hpc] at hl; simp [loaderPC] at hl
      | ok fp =>
        simp only [hr] at hs
        injection hs with hs
        subst hs
        refine mkInv_threadOnly hinv ht ?_ ?_ ?_ ?_
        · simp [threadOK]
        · intro hcr; rw [hpc] at hcr; simp [critPC] at hcr
        · intro ho; simp [ownerPC] at ho
        · intro hl; rw [hpc] at hl; simp [loaderPC] at hl
    | lock =>
      simp only [hpc] at hs
      cases hmu : g.mutex with
      | some j =>
        simp only [hmu] at hs
        exact absurd hs (by simp)
      | none =>
        simp only [hmu] at hs
        injection hs with hs
        subst hs
        obtain ⟨mc, tok, rok, rinj, evok, cnt, own⟩ := hinv
        refine ⟨?_, ?_, rok, rinj, evok, ?_, own_set own ht ?_⟩
        · intro i hmi
          have hmi2 : some tid = some i := hmi
          injection hmi2 with hmi2
          rw [← hmi2]
          exact ⟨_, tGet_set_self ht, rfl⟩
        · intro i u hu
          by_cases hit : i = tid
          · rw [hit, tGet_set_self ht] at hu
            injection hu with hu
            rw [← hu, hit]
            simp [threadOK]
          · rw [tGet_set_ne (fun he => hit he.symm)] at hu
            exact threadOK_mu (tok i u hu) (by rw [hmu]; simp)
        · intro p hp0
          obtain ⟨h1, h2⟩ := cnt p hp0
          refine ⟨h1, fun hcp => ?_⟩
          rcases h2 hcp with hreg | hld
          · exact Or.inl hreg
          · exact absurd hld (fun hq => loaderFor_elim_none tok hmu hq)
        · intro ho; simp [ownerPC] at ho
    | check =>
      simp only [hpc] at hs
      have hmu : g.mutex = some tid := threadOK_crit_mutex htok (by rw [hpc]; rfl)
      cases halk : alookup g.registry t.filepath with
      | some id =>
        simp only [halk] at hs
        by_cases herr : (heapGet g.heap id).err = ""
        · rw [if_neg (fun hc => hc herr)] at hs
          injection hs with hs
          subst hs
          obtain ⟨mc, tok, rok, rinj, evok, cnt, own⟩ := hinv
          refine ⟨?_, ?_, rok, rinj, evok, ?_, own_set own ht ?_⟩
          · intro i hmi
            exact absurd hmi (by simp)
          · intro i u hu
            by_cases hit : i = tid
            · rw [hit, tGet_set_self ht] at hu
              injection hu with hu
              rw [← hu, hit]
              simp only [threadOK]
              exact halk
            · rw [tGet_set_ne (fun he => hit he.symm)] at hu
              refine threadOK_mu (tok i u hu) ?_
              rw [hmu]
              intro hq
              injection hq with hq
              exact hit hq.symm
          · intro p hp0
            obtain ⟨h1, h2⟩ := cnt p hp0
            refine ⟨h1, fun hcp => ?_⟩
            rcases h2 hcp with hreg | hld
            · exact Or.inl hreg
            · exact absurd hld (fun hq =>
                loaderFor_elim tok ht hmu (by rw [hpc]; rfl) hq)
          · intro ho; simp [ownerPC] at ho
        · rw [if_pos herr] at hs
          injection hs with hs
          subst hs
          obtain ⟨mc, tok, rok, rinj, evok, cnt, own⟩ := hinv
          refine ⟨?_, ?_, rok, rinj, evok, ?_, own_set own ht ?_⟩
          · intro i hmi
            exact absurd hmi (by simp)
          · intro i u hu
            by_cases hit : i = tid
            · rw [hit, tGet_set_self ht] at hu
              injection hu with hu
              rw [← hu, hit]
              simp [threadOK]
            · rw [tGet_set_ne (fun he => hit he.symm)] at hu
              refine threadOK_mu (tok i u hu) ?_
              rw [hmu]
              intro hq
              injection hq with hq
              exact hit hq.symm
          · intro p hp0
            obtain ⟨h1, h2⟩ := cnt p hp0
            refine ⟨h1, fun hcp => ?_⟩
            rcases h2 hcp with hreg | hld
            · exact Or.inl hreg
            · exact absurd hld (fun hq =>
                loaderFor_elim tok ht hmu (by rw [hpc]; rfl) hq)
          · intro ho; simp [ownerPC] at ho
      | none =>
        simp only [halk] at hs
        injection hs with hs
        subst hs
        refine mkInv_threadOnly hinv ht ?_ ?_ ?_ ?_
        · simp only [threadOK]
          exact ⟨hmu, halk⟩
        · intro _; rfl
        · intro ho; simp [ownerPC] at ho
        · intro hl; rw [hpc] at hl; simp [loaderPC] at hl
    | wait id =>
      simp only [hpc] at hs
      simp only [threadOK, hpc] at htok
      by_cases hcl : (heapGet g.heap id).loadedClosed = true
      · rw [if_pos hcl] at hs
        injection hs with hs
        subst hs
        refine mkInv_threadOnly hinv ht ?_ ?_ ?_ ?_
        · simp only [threadOK]
          exact ⟨htok, hcl⟩
        · intro hcr; rw [hpc] at hcr; simp [critPC] at hcr
        · intro ho; simp [ownerPC] at ho
        · intro hl; rw [hpc] at hl; simp [loaderPC] at hl
      · rw [if_neg hcl] at hs
        exact absurd hs (by simp)
    | popen =>
      simp only [hpc] at hs
      simp only [threadOK, hpc] at htok
      obtain ⟨hmu, halk⟩ := htok
      have hlk : decide (g.mutex = some tid) = true := by
        rw [hmu]
        simp
      by_cases hz : env.pluginOpenFn t.filepath = 0
      · rw [if_pos hz] at hs
        injection hs with hs
        subst hs
        obtain ⟨mc, tok, rok, rinj, evok, cnt, own⟩ := hinv
        refine ⟨?_, ?_, rok, rinj, ?_, ?_, own_set own ht ?_⟩
        · intro i hmi
          exact absurd hmi (by simp)
        · intro i u hu
          by_cases hit : i = tid
          · rw [hit, tGet_set_self ht] at hu
            injection hu with hu
            rw [← hu, hit]
            simp [threadOK]
          · rw [tGet_set_ne (fun he => hit he.symm)] at hu
            refine threadOK_mu (tok i u hu) ?_
            rw [hmu]
            intro hq
            injection hq with hq
            exact hit hq.symm
        · intro e2 he2
          rcases List.mem_append.mp he2 with hin | hin
          · exact evok e2 hin
          · rw [List.mem_singleton.mp hin]
            simp only [eventOK]
            exact hlk
        · intro p hp0
          by_cases hfp : t.filepath = p
          · exact absurd (hfp ▸ hz) hp0
          · rw [countPopen_append_other (by simp [isPopenFor, hfp])]
            obtain ⟨h1, h2⟩ := cnt p hp0
            refine ⟨h1, fun hcp => ?_⟩
            rcases h2 hcp with hreg | hld
            · exact Or.inl hreg
            · exact absurd hld (fun hq =>
                loaderFor_elim tok ht hmu (by rw [hpc]; rfl) hq)
        · intro ho; simp [ownerPC] at ho
      · rw [if_neg hz] at hs
        injection hs with hs
        subst hs
        obtain ⟨mc, tok, rok, rinj, evok, cnt, own⟩ := hinv
        refine ⟨?_, ?_, rok, rinj, ?_, ?_, own_set own ht ?_⟩
        · intro i hmi
          obtain ⟨u, hu, hcu⟩ := mc i hmi
          by_cases hit : i = tid
          · rw [hit]
            exact ⟨_, tGet_set_self ht, rfl⟩
          · exact ⟨u, by rwa [tGet_set_ne (fun he => hit he.symm)], hcu⟩
        · intro i u hu
          by_cases hit : i = tid
          · rw [hit, tGet_set_self ht] at hu
            injection hu with hu
            rw [← hu, hit]
            simp only [threadOK]
            exact ⟨hmu, halk, hz⟩
          · rw [tGet_set_ne (fun he => hit he.symm)] at hu
            exact tok i u hu
        · intro e2 he2
          rcases List.mem_append.mp he2 with hin | hin
          · exact evok e2 hin
          · rw [List.mem_singleton.mp hin]
            simp only [eventOK]
            exact hlk
        · intro p hp0
          by_cases hfp : t.filepath = p
          · have hcz : countPopen g.events p = 0 := by
              rcases Nat.lt_or_ge (countPopen g.events p) 1 with hq | hq
              · omega
              · exfalso
                have h1 := (cnt p hp0).1
                have h2 := (cnt p hp0).2 (by omega)
                rcases h2 with hreg | hld
                · rw [← hfp, halk] at hreg
                  simp at hreg
                · exact loaderFor_elim tok ht hmu (by rw [hpc]; rfl) hld
            rw [countPopen_append, hcz]
            refine ⟨by split <;> omega, fun _ => Or.inr ?_⟩
            exact ⟨tid, _, tGet_set_self ht, rfl, hfp⟩
          · rw [countPopen_append_other (by simp [isPopenFor, hfp])]
            obtain ⟨h1, h2⟩ := cnt p hp0
            refine ⟨h1, fun hcp => ?_⟩
            rcases h2 hcp with hreg | hld
            · exact Or.inl hreg
            · exact absurd hld (fun hq =>
                loaderFor_elim tok ht hmu (by rw [hpc]; rfl) hq)
        · intro ho; simp [ownerPC] at ho
    | strip =>
      simp only [hpc] at hs
      injection hs with hs
      subst hs
      simp only [threadOK, hpc] at htok
      obtain ⟨hmu, halk, hnz⟩ := htok
      refine mkInv_threadOnly hinv ht ?_ ?_ ?_ ?_
      · simp only [threadOK]
        exact ⟨hmu, halk, hnz⟩
      · intro _; rfl
      · intro ho; simp [ownerPC] at ho
      · intro _; exact ⟨rfl, rfl⟩
    | lastmod =>
      simp only [hpc] at hs
      simp only [threadOK, hpc] at htok
      obtain ⟨hmu, halk, hnz⟩ := htok
      by_cases herr : (env.lastmod t.filepath).errstr = ""
      · rw [if_neg (fun hc => hc herr)] at hs
        injection hs with hs
        subst hs
        refine mkInv_threadOnly hinv ht ?_ ?_ ?_ ?_
        · simp only [threadOK]
          exact ⟨hmu, halk, hnz, herr, trivial⟩
        · intro _; rfl
        · intro ho; simp [ownerPC] at ho
        · intro _; exact ⟨rfl, rfl⟩
      · rw [if_pos herr] at hs
        injection hs with hs
        subst hs
        obtain ⟨mc, tok, rok, rinj, evok, cnt, own⟩ := hinv
        refine ⟨?_, ?_, ?_, ?_, evok, ?_, own_set own ht ?_⟩
        · intro i hmi
          exact absurd hmi (by simp)
        · intro i u hu
          by_cases hit : i = tid
          · rw [hit, tGet_set_self ht] at hu
            injection hu with hu
            rw [← hu, hit]
            simp [threadOK]
          · rw [tGet_set_ne (fun he => hit he.symm)] at hu
            have hold := tok i u hu
            have hnc : critPC u.pc = false := by
              cases hcu : critPC u.pc
              · rfl
              · exfalso
                have hq := threadOK_crit_mutex hold hcu
                rw [hmu] at hq
                injection hq with hq
                exact hit hq.symm
            exact threadOK_extend hold hnc (fun q id2 hq => (rok q id2 hq).1)
        · intro p id2 halk2
          rcases alookup_append_cases halk2 with hold | ⟨hnone, hqp, hidL⟩
          · obtain ⟨hlt, hro⟩ := rok p id2 hold
            refine ⟨by simp; omega, ?_⟩
            rw [heapGet_append_lt hlt]
            exact hro
          · subst hqp
            subst hidL
            refine ⟨by simp, ?_⟩
            rw [heapGet_append_len]
            refine ⟨rfl, hnz, fun _ => ⟨rfl, rfl, rfl, rfl⟩, fun hee => absurd hee herr⟩
        · intro p q id2 h1 h2
          rcases alookup_append_cases h1 with ho1 | ⟨hn1, hq1, hid1⟩ <;>
            rcases alookup_append_cases h2 with ho2 | ⟨hn2, hq2, hid2⟩
          · exact rinj p q id2 ho1 ho2
          · exfalso
            have := (rok p id2 ho1).1
            omega
          · exfalso
            have := (rok q id2 ho2).1
            omega
          · rw [hq1, hq2]
        · intro p hp0
          obtain ⟨h1, h2⟩ := cnt p hp0
          refine ⟨h1, fun hcp => ?_⟩
          rcases h2 hcp with hreg | ⟨j, u, hu, hl, hf⟩
          · left
            rw [Option.isSome_iff_exists] at hreg
            obtain ⟨id0, hid0⟩ := hreg
            rw [Option.isSome_iff_exists]
            exact ⟨id0, alookup_append_some hid0⟩
          · left
            have hcm := threadOK_crit_mutex (tok j u hu) (loader_crit hl)
            rw [hmu] at hcm
            injection hcm with hcm
            rw [← hcm] at hu
            rw [ht] at hu
            injection hu with hu
            rw [← hu] at hf
            rw [← hf, alookup_append_none halk]
            simp [alookup]
        · intro ho; simp [ownerPC] at ho
    | insert =>
      simp only [hpc] at hs
      injection hs with hs
      subst hs
      simp only [threadOK, hpc] at htok
      obtain ⟨hmu, halk, hnz, herr, hplg⟩ := htok
      obtain ⟨mc, tok, rok, rinj, evok, cnt, own⟩ := hinv
      refine ⟨?_, ?_, ?_, ?_, evok, ?_, ?_⟩
      · intro i hmi
        exact absurd hmi (by simp)
      · intro i u hu
        by_cases hit : i = tid
        · rw [hit, tGet_set_self ht] at hu
          injection hu with hu
          rw [← hu, hit]
          simp only [threadOK]
          refine ⟨⟨?_, by simp, hplg, herr, hnz, ?_, ?_⟩, ?_, ?_⟩
          · rw [alookup_append_none halk]
            simp [alookup]
          · rw [heapGet_append_len]
          · rw [heapGet_append_len]
          · rw [heapGet_append_len]
          · rw [heapGet_append_len]
        · rw [tGet_set_ne (fun he => hit he.symm)] at hu
          have hold := tok i u hu
          have hnc : critPC u.pc = false := by
            cases hcu : critPC u.pc
            · rfl
            · exfalso
              have hq := threadOK_crit_mutex hold hcu
              rw [hmu] at hq
              injection hq with hq
              exact hit hq.symm
          exact threadOK_extend hold hnc (fun q id2 hq => (rok q id2 hq).1)
      · intro p id2 halk2
        rcases alookup_append_cases halk2 with hold | ⟨hnone, hqp, hidL⟩
        · obtain ⟨hlt, hro⟩ := rok p id2 hold
          refine ⟨by simp; omega, ?_⟩
          rw [heapGet_append_lt hlt]
          exact hro
        · subst hqp
          subst hidL
          refine ⟨by simp, ?_⟩
          rw [heapGet_append_len]
          refine ⟨hplg, hnz, fun hee => absurd rfl hee, fun _ => ⟨rfl, herr, ?_, ?_⟩⟩
          · intro s hss
            exact absurd hss (by simp)
          · intro hq
            exact absurd hq (by simp)
      · intro p q id2 h1 h2
        rcases alookup_append_cases h1 with ho1 | ⟨hn1, hq1, hid1⟩ <;>
          rcases alookup_append_cases h2 with ho2 | ⟨hn2, hq2, hid2⟩
        · exact rinj p q id2 ho1 ho2
        · exfalso
          have := (rok p id2 ho1).1
          omega
        · exfalso
          have := (rok q id2 ho2).1
          omega
        · rw [hq1, hq2]
      · intro p hp0
        obtain ⟨h1, h2⟩ := cnt p hp0
        refine ⟨h1, fun hcp => ?_⟩
        rcases h2 hcp with hreg | ⟨j, u, hu, hl, hf⟩
        · left
          rw [Option.isSome_iff_exists] at hreg
          obtain ⟨id0, hid0⟩ := hreg
          rw [Option.isSome_iff_exists]
          exact ⟨id0, alookup_append_some hid0⟩
        · left
          have hcm := threadOK_crit_mutex (tok j u hu) (loader_crit hl)
          rw [hmu] at hcm
          injection hcm with hcm
          rw [← hcm] at hu
          rw [ht] at hu
          injection hu with hu
          rw [← hu] at hf
          rw [← hf, alookup_append_none halk]
          simp [alookup]
      · intro i j ti tj hi hj hoi hoj hrr
        by_cases hit : i = tid <;> by_cases hjt : j = tid
        · rw [hit, hjt]
        · exfalso
          rw [hit, tGet_set_self ht] at hi
          injection hi with hi
          rw [tGet_set_ne (fun he => hjt he.symm)] at hj
          have hrec := threadOK_owner_rec (tok j tj hj) hoj
          have hlt : tj.recId < g.heap.length := hrec.2.1
          have hx : g.heap.length = tj.recId := by
            rw [← hi] at hrr
            exact hrr
          omega
        · exfalso
          rw [hjt, tGet_set_self ht] at hj
          injection hj with hj
          rw [tGet_set_ne (fun he => hit he.symm)] at hi
          have hrec := threadOK_owner_rec (tok i ti hi) hoi
          have hlt : ti.recId < g.heap.length := hrec.2.1
          have hx : ti.recId = g.heap.length := by
            rw [← hj] at hrr
            exact hrr
          omega
        · rw [tGet_set_ne (fun he => hit he.symm)] at hi
          rw [tGet_set_ne (fun he => hjt he.symm)] at hj
          exact own i j ti tj hi hj hoi hoj hrr
    | initlookup =>
      simp only [hpc] at hs
      simp only [threadOK, hpc] at htok
      obtain ⟨hrec, hunp⟩ := htok
      have hmune : g.mutex ≠ some tid := by
        intro hq
        obtain ⟨u, hu, hcu⟩ := hinv.mutexCrit tid hq
        rw [ht] at hu
        injection hu with hu
        rw [← hu, hpc] at hcu
        simp [critPC] at hcu
      cases hres : env.resolve t.filepath (t.pluginpath ++ ".init") with
      | some a =>
        simp only [hres] at hs
        injection hs with hs
        subst hs
        refine mkInv_threadEvents hinv ht ?_ ?_ ?_ ?_ ?_ ?_
        · simp only [threadOK]
          exact ⟨hrec, hunp, by rw [hres]; rfl⟩
        · intro hcr; rw [hpc] at hcr; simp [critPC] at hcr
        · intro _; exact ⟨by rw [hpc]; rfl, rfl⟩
        · intro hl; rw [hpc] at hl; simp [loaderPC] at hl
        · simp only [eventOK]
          exact decide_eq_false hmune
        · intro p; rfl
      | none =>
        simp only [hres] at hs
        injection hs with hs
        subst hs
        refine mkInv_threadEvents hinv ht ?_ ?_ ?_ ?_ ?_ ?_
        · simp only [threadOK]
          exact ⟨hrec, hunp, [], by simp, rfl⟩
        · intro hcr; rw [hpc] at hcr; simp [critPC] at hcr
        · intro _; exact ⟨by rw [hpc]; rfl, rfl⟩
        · intro hl; rw [hpc] at hl; simp [loaderPC] at hl
        · simp only [eventOK]
          exact decide_eq_false hmune
        · intro p; rfl
    | initcall =>
      simp only [hpc] at hs
      injection hs with hs
      subst hs
      simp only [threadOK, hpc] at htok
      obtain ⟨hrec, hunp, hres⟩ := htok
      have hmune : g.mutex ≠ some tid := by
        intro hq
        obtain ⟨u, hu, hcu⟩ := hinv.mutexCrit tid hq
        rw [ht] at hu
        injection hu with hu
        rw [← hu, hpc] at hcu
        simp [critPC] at hcu
      refine mkInv_threadEvents hinv ht ?_ ?_ ?_ ?_ ?_ ?_
      · simp only [threadOK]
        exact ⟨hrec, hunp, [], by simp, rfl⟩
      · intro hcr; rw [hpc] at hcr; simp [critPC] at hcr
      · intro _; exact ⟨by rw [hpc]; rfl, rfl⟩
      · intro hl; rw [hpc] at hl; simp [loaderPC] at hl
      · simp only [eventOK]
        exact decide_eq_false hmune
      · intro p; rfl
    | symloop rem acc =>
      simp only [hpc] at hs
      simp only [threadOK, hpc] at htok
      obtain ⟨hrec, hunp, pre, hpre, hmat⟩ := htok
      have hmune : g.mutex ≠ some tid := by
        intro hq
        obtain ⟨u, hu, hcu⟩ := hinv.mutexCrit tid hq
        rw [ht] at hu
        injection hu with hu
        rw [← hu, hpc] at hcu
        simp [critPC] at hcu
      cases rem with
      | nil =>
        injection hs with hs
        subst hs
        refine mkInv_threadOnly hinv ht ?_ ?_ ?_ ?_
        · simp only [threadOK]
          refine ⟨hrec, hunp, ?_⟩
          rw [List.append_nil] at hpre
          rw [hpre]
          exact hmat
        · intro hcr; rw [hpc] at hcr; simp [critPC] at hcr
        · intro _; exact ⟨by rw [hpc]; rfl, rfl⟩
        · intro hl; rw [hpc] at hl; simp [loaderPC] at hl
      | cons n rest =>
        cases hres : env.resolve t.filepath (t.pluginpath ++ "." ++ effName n) with
        | none =>
          simp only [hres] at hs
          injection hs with hs
          subst hs
          refine mkInv_threadEvents hinv ht ?_ ?_ ?_ ?_ ?_ ?_
          · simp [threadOK]
          · intro hcr; rw [hpc] at hcr; simp [critPC] at hcr
          · intro ho; simp [ownerPC] at ho
          · intro hl; rw [hpc] at hl; simp [loaderPC] at hl
          · simp only [eventOK]
            exact decide_eq_false hmune
          · intro p; rfl
        | some addr =>
          simp only [hres] at hs
          injection hs with hs
          subst hs
          refine mkInv_threadEvents hinv ht ?_ ?_ ?_ ?_ ?_ ?_
          · simp only [threadOK]
            refine ⟨hrec, hunp, pre ++ [n], by rw [hpre]; simp, ?_⟩
            rw [matList_append, hmat]
            simp [matList, hres]
          · intro hcr; rw [hpc] at hcr; simp [critPC] at hcr
          · intro _; exact ⟨by rw [hpc]; rfl, rfl⟩
          · intro hl; rw [hpc] at hl; simp [loaderPC] at hl
          · simp only [eventOK]
            exact decide_eq_false hmune
          · intro p; rfl
    | setsyms acc =>
      simp only [hpc] at hs
      injection hs with hs
      subst hs
      simp only [threadOK, hpc] at htok
      obtain ⟨hrec, hunp, hmat⟩ := htok
      obtain ⟨halk, hlt, hplg, herrstr, hnz, herr0, hplg2⟩ := hrec
      obtain ⟨mc, tok, rok, rinj, evok, cnt, own⟩ := hinv
      refine ⟨?_, ?_, ?_, rinj, evok, ?_, own_set own ht ?_⟩
      · intro i hmi
        obtain ⟨u, hu, hcu⟩ := mc i hmi
        by_cases hit : i = tid
        · exfalso
          rw [hit, ht] at hu
          injection hu with hu
          rw [← hu, hpc] at hcu
          simp [critPC] at hcu
        · exact ⟨u, by rwa [tGet_set_ne (fun he => hit he.symm)], hcu⟩
      · intro i u hu
        by_cases hit : i = tid
        · rw [hit, tGet_set_self ht] at hu
          injection hu with hu
          rw [← hu, hit]
          simp only [threadOK]
          refine ⟨⟨halk, by rw [heapSet_length]; exact hlt, hplg, herrstr, hnz, ?_, ?_⟩, ?_⟩
          · rw [heapGet_set_self hlt]
            exact herr0
          · rw [heapGet_set_self hlt]
            exact hplg2
          · rw [heapGet_set_self hlt]
            rfl
        · rw [tGet_set_ne (fun he => hit he.symm)] at hu
          refine threadOK_heapSet (tok i u hu) (fun hq => hq) ?_
          intro hou he
          exact hit (own i tid u t hu ht hou (by rw [hpc]; rfl) he)
      · intro p id2 halk2
        by_cases hid : id2 = t.recId
        · have hpeq : p = t.filepath := rinj p t.filepath id2 halk2 (by rw [hid]; exact halk)
          subst hpeq
          subst hid
          obtain ⟨hro1, hro2, hro3, hro4⟩ := (rok t.filepath t.recId halk).2
          refine ⟨by rw [heapSet_length]; exact hlt, ?_⟩
          rw [heapGet_set_self hlt]
          refine ⟨hro1, hro2, fun hee => absurd herr0 hee, fun _ => ⟨(hro4 herr0).1, herrstr, ?_, fun _ => rfl⟩⟩
          intro s hss
          injection hss with hss
          rw [← hss]
          show matList env t.filepath (heapGet g.heap t.recId).pluginpath (env.lastmod t.filepath).syms [] = some acc
          rw [hplg2]
          exact hmat
        · obtain ⟨hlt2, hro⟩ := rok p id2 halk2
          refine ⟨by rw [heapSet_length]; exact hlt2, ?_⟩
          rw [heapGet_set_ne (fun he => hid he.symm)]
          exact hro
      · intro p hp0
        obtain ⟨h1, h2⟩ := cnt p hp0
        refine ⟨h1, fun hcp => ?_⟩
        rcases h2 hcp with hreg | hld
        · exact Or.inl hreg
        · exact Or.inr (loaderFor_set ht
            (fun hq => by rw [hpc] at hq; simp [loaderPC] at hq) hld)
      · intro _; exact ⟨by rw [hpc]; rfl, rfl⟩
    | closeld =>
      simp only [hpc] at hs
      injection hs with hs
      subst hs
      simp only [threadOK, hpc] at htok
      obtain ⟨hrec, hsome⟩ := htok
      obtain ⟨halk, hlt, hplg, herrstr, hnz, herr0, hplg2⟩ := hrec
      obtain ⟨mc, tok, rok, rinj, evok, cnt, own⟩ := hinv
      refine ⟨?_, ?_, ?_, rinj, evok, ?_, own_set own ht ?_⟩
      · intro i hmi
        obtain ⟨u, hu, hcu⟩ := mc i hmi
        by_cases hit : i = tid
        · exfalso
          rw [hit, ht] at hu
          injection hu with hu
          rw [← hu, hpc] at hcu
          simp [critPC] at hcu
        · exact ⟨u, by rwa [tGet_set_ne (fun he => hit he.symm)], hcu⟩
      · intro i u hu
        by_cases hit : i = tid
        · rw [hit, tGet_set_self ht] at hu
          injection hu with hu
          rw [← hu, hit]
          simp only [threadOK]
          refine ⟨halk, ?_⟩
          rw [heapGet_set_self hlt]
        · rw [tGet_set_ne (fun he => hit he.symm)] at hu
          refine threadOK_heapSet (tok i u hu) (fun _ => rfl) ?_
          intro hou he
          exact hit (own i tid u t hu ht hou (by rw [hpc]; rfl) he)
      · intro p id2 halk2
        by_cases hid : id2 = t.recId
        · have hpeq : p = t.filepath := rinj p t.filepath id2 halk2 (by rw [hid]; exact halk)
          subst hpeq
          subst hid
          obtain ⟨hro1, hro2, hro3, hro4⟩ := (rok t.filepath t.recId halk).2
          refine ⟨by rw [heapSet_length]; exact hlt, ?_⟩
          rw [heapGet_set_self hlt]
          refine ⟨hro1, hro2, fun hee => absurd herr0 hee, fun _ => ⟨(hro4 herr0).1, herrstr, ?_, fun _ => hsome⟩⟩
          intro s hss
          exact (hro4 herr0).2.2.1 s hss
        · obtain ⟨hlt2, hro⟩ := rok p id2 halk2
          refine ⟨by rw [heapSet_length]; exact hlt2, ?_⟩
          rw [heapGet_set_ne (fun he => hid he.symm)]
          exact hro
      · intro p hp0
        obtain ⟨h1, h2⟩ := cnt p hp0
        refine ⟨h1, fun hcp => ?_⟩
        rcases h2 hcp with hreg | hld
        · exact Or.inl hreg
        · exact Or.inr (loaderFor_set ht
            (fun hq => by rw [hpc] at hq; simp [loaderPC] at hq) hld)
      · intro ho
        exact absurd ho (by simp [ownerPC])
    | done res =>
      simp only [hpc] at hs
      exact absurd hs (by simp)

/-! ## Reachability -/

/-- One interleaving step by some thread. -/
def StepRel (env : Env) (g g2 : GState) : Prop := ∃ tid, step env g tid = some g2

/-- Reachability under arbitrary interleavings. -/
def Reach (env : Env) : GState → GState → Prop := Relation.ReflTransGen (StepRel env)

theorem inv_reach {env : Env} {g g2 : GState} (hinv : Inv env g)
    (h : Reach env g g2) : Inv env g2 := by
  induction h with
  | refl => exact hinv
  | tail _ hstep ih =>
    obtain ⟨tid, hstep⟩ := hstep
    exact inv_step ih hstep

theorem reach_run (env : Env) (g : GState) (sched : List Nat) :
    Reach env g (run env g sched) := by
  induction sched generalizing g with
  | nil => exact Relation.ReflTransGen.refl
  | cons tid rest ih =>
    show Reach env g (run env g (tid :: rest))
    unfold run
    cases hstep : step env g tid with
    | none => exact ih g
    | some g2 =>
      exact Relation.ReflTransGen.trans
        (Relation.ReflTransGen.single ⟨tid, hstep⟩) (ih g2)

/-- Every state reachable from an initial state satisfies the
invariant. -/
theorem inv_reach_init {env : Env} {names : List String} {g : GState}
    (h : Reach env (initState names) g) : Inv env g :=
  inv_reach (inv_init env names) h

/-! ## Concrete environments for scenario checks -/

/-- The export table of the spec scenario: `math.Add` callable (dot
prefix in the runtime table), `math.Pi` data, no initializer. -/
def envC7 : Env :=
  { realpathFn := fun n => if n = "math" then .ok "/lib/math.so" else .error .ENOENT,
    pluginOpenFn := fun _ => 42,
    pluginOpenErr := fun _ => "load failed",
    lastmod := fun _ => { pluginpath := "math", syms := [".Add", "Pi"], errstr := "" },
    resolve := fun _ sym => if sym = "math.Add" then some 100
      else if sym = "math.Pi" then some 200 else none,
    resolveErr := fun _ _ => "proc not found" }

/-- A full single-thread load takes 13 steps. -/
def schedC7 : List Nat := List.replicate 13 0

/-- An environment whose dynamic linker rejects every image
(`pluginOpen` returns a zero handle). -/
def envC10 : Env :=
  { realpathFn := fun _ => .ok "/p",
    pluginOpenFn := fun _ => 0,
    pluginOpenErr := fun _ => "denied",
    lastmod := fun _ => { pluginpath := "m", syms := [], errstr := "" },
    resolve := fun _ _ => none,
    resolveErr := fun _ _ => "nf" }

/-- Same failing linker, used for the at-most-one-load counterexample. -/
def envC1 : Env :=
  { realpathFn := fun _ => .ok "/p",
    pluginOpenFn := fun _ => 0,
    pluginOpenErr := fun _ => "denied",
    lastmod := fun _ => { pluginpath := "m", syms := [], errstr := "" },
    resolve := fun _ _ => none,
    resolveErr := fun _ _ => "nf" }

/-- A successful-load environment for the at-most-one-load witness. -/
def envC1b : Env :=
  { realpathFn := fun _ => .ok "/p",
    pluginOpenFn := fun _ => 7,
    pluginOpenErr := fun _ => "x",
    lastmod := fun _ => { pluginpath := "m", syms := [], errstr := "" },
    resolve := fun _ _ => none,
    resolveErr := fun _ _ => "nf" }

/-! ## Suffix stripping -/

theorem stripSoL_append (l : List Char) (h : l ≠ []) :
    stripSoL (l ++ soSuffix) = l := by
  unfold stripSoL
  have hlen : (l ++ soSuffix).length = l.length + 3 := by simp [soSuffix]
  have hsub : l.length + 3 - 3 = l.length := by omega
  have hc : 3 < (l ++ soSuffix).length ∧
      (l ++ soSuffix).drop ((l ++ soSuffix).length - 3) = soSuffix := by
    constructor
    · rw [hlen]
      have : 0 < l.length := List.length_pos.mpr h
      omega
    · rw [hlen, hsub]
      exact List.drop_left l soSuffix
  rw [if_pos hc, hlen, hsub]
  exact List.take_left l soSuffix

theorem stripSoL_id (l : List Char) (h : l.drop (l.length - 3) ≠ soSuffix) :
    stripSoL l = l := by
  unfold stripSoL
  rw [if_neg (fun hc => h hc.2)]

/-! ## Claim theorems -/

/-- C7: for `open("math")` with export table `[math.Add callable,
math.Pi data]` and no initializer, the load completes successfully;
`lookup` of `Add` returns a callable handle wrapping the resolved
address, `lookup` of `Pi` returns a data handle holding the resolved
address directly, and `lookup` of `Missing` fails with an error that
names the requested symbol and the module identity. -/
theorem C7_math_scenario :
    (tGet (run envC7 (initState ["math"]) schedC7).threads 0).map (fun t => t.pc)
      = some (PC.done (.ok 0)) ∧
    lookupP (heapGet (run envC7 (initState ["math"]) schedC7).heap 0) "Add"
      = .ok (.func 100) ∧
    lookupP (heapGet (run envC7 (initState ["math"]) schedC7).heap 0) "Pi"
      = .ok (.data 200) ∧
    lookupP (heapGet (run envC7 (initState ["math"]) schedC7).heap 0) "Missing"
      = .error "plugin: symbol Missing not found in plugin math" := by
  decide

/-- C8: counterexample — the loader strips the literal `".so"` token,
not the Windows platform library extension: the name derived for
`"mod.dll"` keeps its `.dll` suffix, so the identifier derived with the
platform suffix differs from the identifier derived without it. -/
theorem C8_counterexample :
    stripSo "mod.dll" = "mod.dll" ∧ stripSo "mod" = "mod" ∧
    ¬ stripSo "mod.dll" = stripSo "mod" := by
  decide

/-- C8 (amended): the suffix stripped from the requested name is the
literal `".so"`: for any nonempty name that does not already end in
`".so"`, the name derived with a trailing `".so"` equals the name
derived without it. -/
theorem C8_so_suffix_stripped (s : String) (h1 : s.data ≠ [])
    (h2 : s.data.drop (s.data.length - 3) ≠ soSuffix) :
    stripSo (s ++ ".so") = s ∧ stripSo s = s := by
  constructor
  · show String.mk (stripSoL (s ++ ".so").data) = s
    have hdata : (s ++ ".so").data = s.data ++ soSuffix := by
      rw [String.data_append]
      rfl
    rw [hdata, stripSoL_append s.data h1]
  · show String.mk (stripSoL s.data) = s
    rw [stripSoL_id s.data h2]

theorem C8_so_suffix_stripped_witness :
    ("math" : String).data ≠ [] ∧
    ("math" : String).data.drop (("math" : String).data.length - 3) ≠ soSuffix ∧
    (stripSo ("math" ++ ".so") = "math" ∧ stripSo "math" = "math") :=
  ⟨by decide, by decide, C8_so_suffix_stripped "math" (by decide) (by decide)⟩

/-- C9: path canonicalization failures carry the Win32 error translated
into the four-class taxonomy — `ERROR_FILE_NOT_FOUND` (2) to not-found
(`ENOENT`), `ERROR_PATH_NOT_FOUND` (3) and `ERROR_INVALID_DRIVE` (15)
to not-a-directory (`ENOTDIR`), `ERROR_ACCESS_DENIED` (5) to
access-denied (`EACCES`), every other code to other-io (`Eio`, modelling EIO) — and
`open` propagates any canonicalization failure as an error to its
caller. -/
theorem C9_resolution_error_taxonomy :
    winErrToErrno 2 = .ENOENT ∧
    winErrToErrno 3 = .ENOTDIR ∧
    winErrToErrno 15 = .ENOTDIR ∧
    winErrToErrno 5 = .EACCES ∧
    (∀ c, c ≠ 2 → c ≠ 3 → c ≠ 15 → c ≠ 5 → winErrToErrno c = .Eio) ∧
    (∀ api st p c, api p = .osfail c →
      realpathModel api st p = .error (winErrToErrno c)) ∧
    (∀ env g tid t e, tGet g.threads tid = some t → t.pc = .start →
      env.realpathFn t.name = .error e →
      ∃ g2, step env g tid = some g2 ∧
        (tGet g2.threads tid).map (fun u => u.pc)
          = some (PC.done (.error ("plugin.Open(\"" ++ t.name ++ "\"): realpath failed")))) := by
  refine ⟨rfl, rfl, rfl, rfl, ?_, ?_, ?_⟩
  · intro c h2 h3 h15 h5
    simp [winErrToErrno, h2, h3, h15, h5]
  · intro api st p c hape
    simp [realpathModel, hape]
  · intro env g tid t e ht hpc hre
    unfold step
    simp only [ht, hpc, hre]
    exact ⟨_, rfl, by rw [tGet_set_self ht]; rfl⟩

def envC9w : Env :=
  { realpathFn := fun _ => .error .ENOENT,
    pluginOpenFn := fun _ => 7,
    pluginOpenErr := fun _ => "x",
    lastmod := fun _ => { pluginpath := "m", syms := [], errstr := "" },
    resolve := fun _ _ => none,
    resolveErr := fun _ _ => "nf" }

theorem C9_witness :
    winErrToErrno 44 = .Eio ∧
    realpathModel (fun _ => .osfail 7) (fun _ => none) "q" = .error (winErrToErrno 7) ∧
    ∃ g2, step envC9w (initState ["nope"]) 0 = some g2 ∧
      (tGet g2.threads 0).map (fun u => u.pc)
        = some (PC.done (.error ("plugin.Open(\"" ++ (initThread "nope").name
            ++ "\"): realpath failed"))) :=
  ⟨C9_resolution_error_taxonomy.2.2.2.2.1 44 (by decide) (by decide) (by decide) (by decide),
   C9_resolution_error_taxonomy.2.2.2.2.2.1 (fun _ => .osfail 7) (fun _ => none) "q" 7 rfl,
   C9_resolution_error_taxonomy.2.2.2.2.2.2 envC9w (initState ["nope"]) 0
     (initThread "nope") .ENOENT rfl rfl rfl⟩

/-- C10: when the dynamic linker rejects the image (`pluginOpen`
returns a zero handle), `open` returns the load error without inserting
any record into the registry, so a later `open` of the same path runs
the native load again instead of receiving a cached failure: two
sequential calls log two `pluginOpen` invocations. -/
theorem C10_load_error_not_cached :
    (∀ env g tid t, tGet g.threads tid = some t → t.pc = .popen →
      env.pluginOpenFn t.filepath = 0 →
      ∃ g2, step env g tid = some g2 ∧
        g2.registry = g.registry ∧ g2.heap = g.heap ∧
        (tGet g2.threads tid).map (fun u => u.pc)
          = some (PC.done (.error ("plugin.Open(\"" ++ t.name ++ "\"): "
              ++ env.pluginOpenErr t.filepath ++ " error")))) ∧
    (run envC10 (initState ["a", "b"]) [0, 0, 0, 0, 1, 1, 1, 1]).registry = [] ∧
    countPopen (run envC10 (initState ["a", "b"]) [0, 0, 0, 0, 1, 1, 1, 1]).events "/p" = 2 := by
  refine ⟨?_, by decide, by decide⟩
  intro env g tid t ht hpc hz
  unfold step
  simp only [ht, hpc]
  rw [if_pos hz]
  exact ⟨_, rfl, rfl, rfl, by rw [tGet_set_self ht]; rfl⟩

def gC10 : GState := run envC10 (initState ["a", "b"]) [0, 0, 0]

def tC10 : TState :=
  { pc := .popen, name := "a", filepath := "/p", h := 0, pluginpath := "", recId := 0 }

theorem C10_witness :
    ∃ g2, step envC10 gC10 0 = some g2 ∧
      g2.registry = gC10.registry ∧ g2.heap = gC10.heap ∧
      (tGet g2.threads 0).map (fun u => u.pc)
        = some (PC.done (.error ("plugin.Open(\"" ++ tC10.name ++ "\"): "
            ++ envC10.pluginOpenErr tC10.filepath ++ " error"))) :=
  C10_load_error_not_cached.1 envC10 gC10 0 tC10 (by decide) rfl (by decide)

/-- C1: counterexample — two `open` calls on the same canonical path
whose native load is rejected each invoke `pluginOpen`: after a
complete execution of both calls, two `pluginOpen` invocations are
logged for `"/p"`, refuting that the load is invoked exactly once, and
no cached error exists (the registry stays empty). -/
theorem C1_counterexample :
    ((run envC1 (initState ["a", "b"]) [0, 0, 0, 0, 1, 1, 1, 1]).threads.map (fun t => t.pc)
      = [.done (.error "plugin.Open(\"a\"): denied error"),
         .done (.error "plugin.Open(\"b\"): denied error")]) ∧
    countPopen (run envC1 (initState ["a", "b"]) [0, 0, 0, 0, 1, 1, 1, 1]).events "/p" = 2 ∧
    (run envC1 (initState ["a", "b"]) [0, 0, 0, 0, 1, 1, 1, 1]).registry = [] := by
  decide

/-- C1 (amended): for a canonical path whose native load yields a
nonzero handle, `pluginOpen` is invoked at most once across all
interleavings of any number of `open` calls, and any two calls that
complete successfully for that path return the same `*Plugin` record
identity; when `pluginOpen` itself fails (zero handle) nothing is
cached and each caller may invoke it again. -/
theorem C1_at_most_one_load {env : Env} {names : List String} {g : GState} {p : String}
    (hr : Reach env (initState names) g) (hnz : env.pluginOpenFn p ≠ 0) :
    countPopen g.events p ≤ 1 ∧
    ∀ i j ti tj idi idj, tGet g.threads i = some ti → tGet g.threads j = some tj →
      ti.pc = .done (.ok idi) → tj.pc = .done (.ok idj) →
      ti.filepath = p → tj.filepath = p → idi = idj := by
  have hinv := inv_reach_init hr
  refine ⟨(hinv.cnt p hnz).1, ?_⟩
  intro i j ti tj idi idj hi hj hpci hpcj hfi hfj
  have h1 := hinv.tok i ti hi
  have h2 := hinv.tok j tj hj
  simp only [threadOK, hpci] at h1
  simp only [threadOK, hpcj] at h2
  rw [hfi] at h1
  rw [hfj] at h2
  exact Option.some.inj (h1.1.symm.trans h2.1)

theorem C1_at_most_one_load_witness :
    envC1b.pluginOpenFn "/p" ≠ 0 ∧
    countPopen (run envC1b (initState ["a", "b"])
      [0, 0, 0, 0, 0, 0, 0, 0, 0, 0, 0, 1, 1, 1, 1]).events "/p" ≤ 1 :=
  ⟨by decide,
   (C1_at_most_one_load (reach_run envC1b (initState ["a", "b"])
     [0, 0, 0, 0, 0, 0, 0, 0, 0, 0, 0, 1, 1, 1, 1]) (by decide)).1⟩

/-- The scenario environment for waiter claims: same module as the
`math` scenario. -/
def envC2 : Env :=
  { realpathFn := fun n => if n = "math" then .ok "/lib/math.so" else .error .ENOENT,
    pluginOpenFn := fun _ => 42,
    pluginOpenErr := fun _ => "load failed",
    lastmod := fun _ => { pluginpath := "math", syms := [".Add", "Pi"], errstr := "" },
    resolve := fun _ sym => if sym = "math.Add" then some 100
      else if sym = "math.Pi" then some 200 else none,
    resolveErr := fun _ _ => "proc not found" }

def schedC2 : List Nat := List.replicate 13 0 ++ [1, 1, 1]

def gC2 : GState := run envC2 (initState ["math", "math"]) schedC2

def gC2b : GState := run envC2 (initState ["math", "math"]) (schedC2 ++ [1])

def tC2 : TState :=
  { pc := .wait 0, name := "math", filepath := "/lib/math.so", h := 0,
    pluginpath := "", recId := 0 }

/-- C2: a caller that found an in-flight record and blocked on its
completion channel returns, upon waking, the settled record: its symbol
directory is published, equals the full materialization of the declared
export table, and has an entry for every declared export — never a
partially populated or unsettled state. -/
theorem C2_waiter_observes_settled {env : Env} {names : List String}
    {g g2 : GState} {tid id : Nat} {t : TState}
    (hr : Reach env (initState names) g)
    (ht : tGet g.threads tid = some t) (hpc : t.pc = .wait id)
    (hstep : step env g tid = some g2) :
    (tGet g2.threads tid).map (fun u => u.pc) = some (PC.done (.ok id)) ∧
    ∃ s, (heapGet g.heap id).syms = some s ∧
      matList env t.filepath (heapGet g.heap id).pluginpath
        (env.lastmod t.filepath).syms [] = some s ∧
      ∀ n ∈ (env.lastmod t.filepath).syms, (mlookup s (effName n)).isSome = true := by
  have hinv := inv_reach_init hr
  have htok := hinv.tok tid t ht
  simp only [threadOK, hpc] at htok
  unfold step at hstep
  simp only [ht, hpc] at hstep
  by_cases hcl : (heapGet g.heap id).loadedClosed = true
  · rw [if_pos hcl] at hstep
    injection hstep with hstep
    subst hstep
    refine ⟨by rw [tGet_set_self ht]; rfl, ?_⟩
    obtain ⟨hlt, hro1, hro2, hro3, hro4⟩ :=
      And.intro (hinv.rok t.filepath id htok).1 (hinv.rok t.filepath id htok).2
    by_cases herr : (heapGet g.heap id).err = ""
    · obtain ⟨hHL, hErrstr, hmatc, hclosed⟩ := hro4 herr
      obtain ⟨s, hss⟩ := Option.isSome_iff_exists.mp (hclosed hcl)
      exact ⟨s, hss, hmatc s hss, fun n hn => matList_mem_isSome (hmatc s hss) hn⟩
    · exfalso
      have hcf := (hro3 herr).2.2.1
      rw [hcf] at hcl
      exact absurd hcl (by simp)
  · rw [if_neg hcl] at hstep
    exact absurd hstep (by simp)

theorem C2_witness :
    (tGet gC2b.threads 1).map (fun u => u.pc) = some (PC.done (.ok 0)) ∧
    ∃ s, (heapGet gC2.heap 0).syms = some s ∧
      matList envC2 tC2.filepath (heapGet gC2.heap 0).pluginpath
        (envC2.lastmod tC2.filepath).syms [] = some s ∧
      ∀ n ∈ (envC2.lastmod tC2.filepath).syms, (mlookup s (effName n)).isSome = true :=
  C2_waiter_observes_settled (reach_run envC2 (initState ["math", "math"]) schedC2)
    (by decide) rfl (by decide)

/-- A module whose second declared export cannot be resolved, though
the first resolves fine. -/
def envC3 : Env :=
  { realpathFn := fun _ => .ok "/p",
    pluginOpenFn := fun _ => 7,
    pluginOpenErr := fun _ => "x",
    lastmod := fun _ => { pluginpath := "m", syms := [".A", "B"], errstr := "" },
    resolve := fun _ sym => if sym = "m.A" then some 5 else none,
    resolveErr := fun _ _ => "nf" }

def gC3 : GState := run envC3 (initState ["a"]) (List.replicate 10 0)

/-- C3: if materializing the declared export table fails for some name,
the whole `open` fails with a could-not-find-symbol error, the record
never publishes a symbol directory, `lookup` on it never succeeds for
any name — including names earlier in the table that resolve — and no
call ever completes successfully for that path. -/
theorem C3_no_partial_publication :
    (∀ env names g p id, Reach env (initState names) g →
      matList env p (env.lastmod p).pluginpath (env.lastmod p).syms [] = none →
      alookup g.registry p = some id →
      (heapGet g.heap id).syms = none ∧
      (∀ n v, lookupP (heapGet g.heap id) n ≠ .ok v) ∧
      (∀ i u idr, tGet g.threads i = some u → u.filepath = p →
        u.pc ≠ .done (.ok idr))) ∧
    ((tGet gC3.threads 0).map (fun u => u.pc)
      = some (PC.done (.error "plugin.Open(\"a\"): could not find symbol B: nf"))) ∧
    lookupP (heapGet gC3.heap 0) "A" = .error "plugin: symbol A not found in plugin m" ∧
    envC3.resolve "/p" "m.A" = some 5 := by
  refine ⟨?_, by decide, by decide, by decide⟩
  intro env names g p id hr hmat halk
  have hinv := inv_reach_init hr
  obtain ⟨hro1, hro2, hro3, hro4⟩ := (hinv.rok p id halk).2
  have hsn : (heapGet g.heap id).syms = none := by
    cases hsy : (heapGet g.heap id).syms with
    | none => rfl
    | some s =>
      exfalso
      by_cases herr : (heapGet g.heap id).err = ""
      · have hmc := (hro4 herr).2.2.1 s hsy
        rw [hro1, hmat] at hmc
        exact absurd hmc (by simp)
      · have := (hro3 herr).2.2.2
        rw [this] at hsy
        exact absurd hsy (by simp)
  refine ⟨hsn, ?_, ?_⟩
  · intro n v
    simp [lookupP, hsn]
  · intro i u idr hu hup hpcu
    have h2 := hinv.tok i u hu
    simp only [threadOK, hpcu] at h2
    rw [hup] at h2
    have hid : idr = id := Option.some.inj (h2.1.symm.trans halk)
    subst hid
    have hclosed := h2.2
    by_cases herr : (heapGet g.heap idr).err = ""
    · have hsome := (hro4 herr).2.2.2 hclosed
      rw [hsn] at hsome
      exact absurd hsome (by simp)
    · have hcf := (hro3 herr).2.2.1
      rw [hcf] at hclosed
      exact absurd hclosed (by simp)

theorem C3_witness :
    matList envC3 "/p" (envC3.lastmod "/p").pluginpath (envC3.lastmod "/p").syms [] = none ∧
    alookup gC3.registry "/p" = some 0 ∧
    ((heapGet gC3.heap 0).syms = none ∧
     (∀ n v, lookupP (heapGet gC3.heap 0) n ≠ .ok v) ∧
     (∀ i u idr, tGet gC3.threads i = some u → u.filepath = "/p" →
       u.pc ≠ .done (.ok idr))) :=
  ⟨by decide, by decide,
   C3_no_partial_publication.1 envC3 ["a"] gC3 "/p" 0
     (reach_run envC3 (initState ["a"]) (List.replicate 10 0)) (by decide) (by decide)⟩

/-- A module whose metadata check fails, yielding a cached Failed
record. -/
def envC4 : Env :=
  { realpathFn := fun _ => .ok "/p",
    pluginOpenFn := fun _ => 7,
    pluginOpenErr := fun _ => "x",
    lastmod := fun _ => { pluginpath := "m", syms := [], errstr := "boom" },
    resolve := fun _ _ => none,
    resolveErr := fun _ _ => "nf" }

def gC4 : GState := run envC4 (initState ["a", "b"]) [0, 0, 0, 0, 0, 0, 1, 1]

def tC4 : TState :=
  { pc := .check, name := "b", filepath := "/p", h := 0, pluginpath := "", recId := 0 }

/-- C4: once a path has a cached Failed record, a later `open` on that
path returns an error whose message carries the original failure text
followed by the `" (previous failure)"` annotation, touches neither the
registry, the heap nor the event log (so the native load is never
retried), and across the whole execution the native load ran at most
once for that path. -/
theorem C4_failure_cached {env : Env} {names : List String} {g : GState}
    {p : String} {id tid : Nat} {t : TState}
    (hr : Reach env (initState names) g)
    (halk : alookup g.registry p = some id)
    (herr : (heapGet g.heap id).err ≠ "")
    (ht : tGet g.threads tid = some t) (hpc : t.pc = .check) (hfp : t.filepath = p) :
    (∃ g2, step env g tid = some g2 ∧
      (tGet g2.threads tid).map (fun u => u.pc)
        = some (PC.done (.error ("plugin.Open(\"" ++ t.name ++ "\"): "
            ++ (heapGet g.heap id).err ++ " (previous failure)"))) ∧
      g2.events = g.events ∧ g2.registry = g.registry ∧ g2.heap = g.heap) ∧
    countPopen g.events p ≤ 1 := by
  have hinv := inv_reach_init hr
  have hnz := ((hinv.rok p id halk).2).2.1
  constructor
  · have halk2 : alookup g.registry t.filepath = some id := by
      rw [hfp]
      exact halk
    unfold step
    simp only [ht, hpc, halk2]
    rw [if_pos herr]
    exact ⟨_, rfl, by rw [tGet_set_self ht]; rfl, rfl, rfl, rfl⟩
  · exact (hinv.cnt p hnz).1

theorem C4_witness :
    (∃ g2, step envC4 gC4 1 = some g2 ∧
      (tGet g2.threads 1).map (fun u => u.pc)
        = some (PC.done (.error ("plugin.Open(\"" ++ tC4.name ++ "\"): "
            ++ (heapGet gC4.heap 0).err ++ " (previous failure)"))) ∧
      g2.events = gC4.events ∧ g2.registry = gC4.registry ∧ g2.heap = gC4.heap) ∧
    countPopen gC4.events "/p" ≤ 1 :=
  C4_failure_cached (reach_run envC4 (initState ["a", "b"]) [0, 0, 0, 0, 0, 0, 1, 1])
    (by decide) (by decide) (by decide) rfl rfl

/-- A successful loader whose `pluginOpen` invocation is recorded with
the lock held. -/
def envC5 : Env :=
  { realpathFn := fun _ => .ok "/p",
    pluginOpenFn := fun _ => 7,
    pluginOpenErr := fun _ => "x",
    lastmod := fun _ => { pluginpath := "m", syms := [], errstr := "" },
    resolve := fun _ _ => none,
    resolveErr := fun _ _ => "nf" }

/-- C5: counterexample — `pluginsMu` IS held across the native load
call: the logged `pluginOpen` invocation carries `lockHeld = true`,
refuting that the registry lock is released before the native load. -/
theorem C5_counterexample :
    Event.popenEv 0 "/p" true 7 ∈ (run envC5 (initState ["a"]) [0, 0, 0, 0]).events := by
  decide

/-- C5 (amended): in every reachable state of every interleaving, each
native-load invocation ran with the registry lock held, while every
initializer invocation and every symbol resolution ran with the lock
released. -/
theorem C5_lock_discipline {env : Env} {names : List String} {g : GState}
    (hr : Reach env (initState names) g) :
    (∀ tid pth lk h, Event.popenEv tid pth lk h ∈ g.events → lk = true) ∧
    (∀ tid lk, Event.initCallEv tid lk ∈ g.events → lk = false) ∧
    (∀ tid fn lk, Event.resolveEv tid fn lk ∈ g.events → lk = false) := by
  have hinv := inv_reach_init hr
  refine ⟨?_, ?_, ?_⟩
  · intro tid pth lk h hm
    exact hinv.evok _ hm
  · intro tid lk hm
    exact hinv.evok _ hm
  · intro tid fn lk hm
    exact hinv.evok _ hm

theorem C5_lock_discipline_witness :
    (∀ tid pth lk h,
      Event.popenEv tid pth lk h ∈ (run envC5 (initState ["a"]) [0, 0, 0, 0]).events →
      lk = true) ∧
    (∀ tid lk,
      Event.initCallEv tid lk ∈ (run envC5 (initState ["a"]) [0, 0, 0, 0]).events →
      lk = false) ∧
    (∀ tid fn lk,
      Event.resolveEv tid fn lk ∈ (run envC5 (initState ["a"]) [0, 0, 0, 0]).events →
      lk = false) :=
  C5_lock_discipline (reach_run envC5 (initState ["a"]) [0, 0, 0, 0])

/-- A module with an initializer export `m.init`. -/
def envC6 : Env :=
  { realpathFn := fun _ => .ok "/p",
    pluginOpenFn := fun _ => 7,
    pluginOpenErr := fun _ => "x",
    lastmod := fun _ => { pluginpath := "m", syms := ["S"], errstr := "" },
    resolve := fun _ sym => if sym = "m.init" then some 1
      else if sym = "m.S" then some 2 else none,
    resolveErr := fun _ _ => "nf" }

def gC6 : GState := run envC6 (initState ["a"]) [0, 0, 0, 0, 0, 0, 0, 0]

def tC6 : TState :=
  { pc := .initcall, name := "a", filepath := "/p", h := 7, pluginpath := "m", recId := 0 }

/-- C6: when a thread is about to resolve or invoke the optional
`<moduleIdentifier>.init` export, the Pending placeholder is already in
the registry while no symbol has been published and no waiter released;
the initializer is invoked only when its export resolves, on the
calling thread (the event carries the caller's id, with the lock
released), and its invocation publishes nothing — the symbol directory
is set and the completion channel closed only by later steps. -/
theorem C6_init_ordering {env : Env} {names : List String} {g : GState}
    {tid : Nat} {t : TState}
    (hr : Reach env (initState names) g)
    (ht : tGet g.threads tid = some t)
    (hpc : t.pc = .initlookup ∨ t.pc = .initcall) :
    alookup g.registry t.filepath = some t.recId ∧
    (heapGet g.heap t.recId).syms = none ∧
    (heapGet g.heap t.recId).loadedClosed = false ∧
    (t.pc = .initcall →
      (env.resolve t.filepath (t.pluginpath ++ ".init")).isSome = true ∧
      ∀ g2, step env g tid = some g2 → g2.heap = g.heap ∧ g2.registry = g.registry ∧
        g2.events = g.events ++ [.initCallEv tid false]) := by
  have hinv := inv_reach_init hr
  have htok := hinv.tok tid t ht
  rcases hpc with hpc | hpc
  · simp only [threadOK, hpc] at htok
    obtain ⟨hrec, hunp⟩ := htok
    refine ⟨hrec.1, hunp.1, hunp.2, fun hcc => ?_⟩
    rw [hpc] at hcc
    exact absurd hcc (by simp)
  · simp only [threadOK, hpc] at htok
    obtain ⟨hrec, hunp, hres⟩ := htok
    have hmune : g.mutex ≠ some tid := by
      intro hq
      obtain ⟨u, hu, hcu⟩ := hinv.mutexCrit tid hq
      rw [ht] at hu
      injection hu with hu
      rw [← hu, hpc] at hcu
      simp [critPC] at hcu
    refine ⟨hrec.1, hunp.1, hunp.2, fun _ => ⟨hres, ?_⟩⟩
    intro g2 hstep
    unfold step at hstep
    simp only [ht, hpc] at hstep
    injection hstep with hstep
    subst hstep
    refine ⟨rfl, rfl, ?_⟩
    have hdf : decide (g.mutex = some tid) = false := decide_eq_false hmune
    rw [show ({ g with
        events := g.events ++ [.initCallEv tid (decide (g.mutex = some tid))],
        threads := tSet g.threads tid
          { t with pc := .symloop (env.lastmod t.filepath).syms [] } } : GState).events
      = g.events ++ [.initCallEv tid (decide (g.mutex = some tid))] from rfl, hdf]

theorem C6_witness :
    alookup gC6.registry tC6.filepath = some tC6.recId ∧
    (heapGet gC6.heap tC6.recId).syms = none ∧
    (heapGet gC6.heap tC6.recId).loadedClosed = false ∧
    (tC6.pc = .initcall →
      (envC6.resolve tC6.filepath (tC6.pluginpath ++ ".init")).isSome = true ∧
      ∀ g2, step envC6 gC6 0 = some g2 → g2.heap = gC6.heap ∧ g2.registry = gC6.registry ∧
        g2.events = gC6.events ++ [.initCallEv 0 false]) :=
  C6_init_ordering (reach_run envC6 (initState ["a"]) [0, 0, 0, 0, 0, 0, 0, 0])
    (by decide) (Or.inr rfl)

end PluginLoader
